import Mathlib

/-!
# RayTracing: sphere intersection, materials and the radiance estimator

A shallow embedding of `vec3.h`, `util.h`, `hittable.h`, `sphere.h`, `material.h`,
`camera.h`, `color.h` and of `ray_color` from `main.cc`.

Modelling conventions.

* `double` is modelled by an arbitrary linearly ordered field `K` with exact
  arithmetic; rounding, NaN and signed zeros are outside the model.  The one
  infinite value the program passes around, `RT_INFINITY` as `t_max`, is the top
  element of `WithTop K`.
* `sqrt` from `<math.h>` is an explicit argument of every function that calls
  it, and so are `cos`, `sin` and `tan`.  Theorems that depend on its value assume `IsSqrt sqrt`; the real square
  root satisfies it.
* A division by zero has no value in the model.  The definitions use the total
  division of the field and the statements carry the hypotheses that keep the
  divisors away from zero.  Where a statement ranges over inputs that reach the
  normalisation of a vector of length zero, it is made about
  `ray_color_checked`, which reports that event.
* A `bool` function with reference out-parameters returns the out-parameters
  together with (or, when they are written on the `true` path only, instead of)
  the boolean.
* The global generator behind `random_double()` is not modelled.  The value
  returned by a sampler call (`random_unit_vector()`, `random_in_unit_sphere()`,
  `random_double()`) is an explicit argument of the function that makes the call.
-/

namespace RayTracing

/-! ## vec3.h -/

/-- The class `vec3`: three components `e[0], e[1], e[2]`, read through
`x()/y()/z()` (and `r()/g()/b()`). -/
@[ext]
structure vec3 (K : Type) where
  x : K
  y : K
  z : K

/-- The alias `point3` of `vec3`. -/
abbrev point3 (K : Type) := vec3 K

/-- The alias `color` of `vec3`. -/
abbrev color (K : Type) := vec3 K

/-- What is assumed of `sqrt` from `<math.h>`: on a non-negative argument it
returns the non-negative square root. -/
def IsSqrt {K : Type} [LinearOrderedField K] (sqrt : K → K) : Prop :=
  ∀ x : K, 0 ≤ x → 0 ≤ sqrt x ∧ sqrt x * sqrt x = x

section Defs

variable {K : Type} [LinearOrderedField K]

/-- The unary `vec3::operator-`. -/
def vec3.neg (v : vec3 K) : vec3 K := ⟨-v.x, -v.y, -v.z⟩

/-- The free `operator+(vec3, vec3)`. -/
def vec3.add (v1 v2 : vec3 K) : vec3 K := ⟨v1.x + v2.x, v1.y + v2.y, v1.z + v2.z⟩

/-- The free `operator-(vec3, vec3)`. -/
def vec3.sub (v1 v2 : vec3 K) : vec3 K := ⟨v1.x - v2.x, v1.y - v2.y, v1.z - v2.z⟩

/-- The free `operator*(vec3, vec3)`: component-wise product. -/
def vec3.mul (v1 v2 : vec3 K) : vec3 K := ⟨v1.x * v2.x, v1.y * v2.y, v1.z * v2.z⟩

/-- The free `operator*(double t, vec3 v)`. -/
def vec3.smul (t : K) (v : vec3 K) : vec3 K := ⟨v.x * t, v.y * t, v.z * t⟩

/-- The free `operator/(vec3 v, double t)`, which returns `(1.0/t) * v`. -/
def vec3.div (v : vec3 K) (t : K) : vec3 K := vec3.smul (1 / t) v

instance : Neg (vec3 K) := ⟨vec3.neg⟩
instance : Add (vec3 K) := ⟨vec3.add⟩
instance : Sub (vec3 K) := ⟨vec3.sub⟩
instance : Mul (vec3 K) := ⟨vec3.mul⟩

/-- The member `vec3::operator*=(double)`. -/
def vec3.mul_assign (v : vec3 K) (t : K) : vec3 K := ⟨v.x * t, v.y * t, v.z * t⟩

/-- The member `vec3::operator/=(double t)`, which is `*this *= 1.0/t`. -/
def vec3.div_assign (v : vec3 K) (t : K) : vec3 K := v.mul_assign (1 / t)

/-- The member `vec3::length_squared`. -/
def vec3.length_squared (v : vec3 K) : K := v.x * v.x + v.y * v.y + v.z * v.z

/-- The member `vec3::length`. -/
def vec3.length (sqrt : K → K) (v : vec3 K) : K := sqrt v.length_squared

/-- The member `vec3::normalized`: a copy divided by its length. -/
def vec3.normalized (sqrt : K → K) (v : vec3 K) : vec3 K := v.div_assign (v.length sqrt)

/-- The free function `dot`. -/
def dot (v1 v2 : vec3 K) : K := v1.x * v2.x + v1.y * v2.y + v1.z * v2.z

/-- The free function `cross`. -/
def cross (v1 v2 : vec3 K) : vec3 K :=
  ⟨v1.y * v2.z - v1.z * v2.y, v1.z * v2.x - v1.x * v2.z, v1.x * v2.y - v1.y * v2.x⟩

/-- The free function `reflect`: `vec - 2 * dot(vec, norm) * norm`. -/
def reflect (vec norm : vec3 K) : vec3 K := vec - vec3.smul (2 * dot vec norm) norm

/-- The free function `refract`. -/
def refract (sqrt : K → K) (uv norm : vec3 K) (eoe : K) : vec3 K :=
  let theta := dot (-uv) norm
  let r_perp := vec3.smul eoe (uv + vec3.smul theta norm)
  let r_parallel := vec3.smul (-sqrt |1 - r_perp.length_squared|) norm
  r_perp + r_parallel

/-! ## ray.h -/

/-- Modelled from the spec: `ray.h` is not among the sources.  A ray is the
pair (origin, direction) read through `origin()` and `direction()`. -/
structure ray (K : Type) where
  origin : point3 K
  direction : vec3 K

/-- Modelled from the spec: `ray.h` is not among the sources.  This is the
member the code calls `r.at(t)`: `point_at(t) = origin + t * direction`. -/
def ray.point_at (r : ray K) (t : K) : point3 K := r.origin + vec3.smul t r.direction

/-! ## material.h: the material classes -/

/-- The class `lambertian`: its private member `albedo`. -/
structure lambertian (K : Type) where
  albedo : color K

/-- The class `metal`: its private members `albedo` and `fuzz`. -/
structure metal (K : Type) where
  albedo : color K
  fuzz : K

/-- The class `dielectric`: its private member `index`. -/
structure dielectric (K : Type) where
  index : K

/-- What a `shared_ptr<material>` points to: an object of one of the three
classes derived from `material`. -/
inductive material (K : Type) where
  | of_lambertian (m : lambertian K)
  | of_metal (m : metal K)
  | of_dielectric (m : dielectric K)

/-- The one-argument constructor `metal::metal(const color& a)`:
`albedo(a), fuzz(0)`. -/
def metal.new1 (a : color K) : metal K := ⟨a, 0⟩

/-- The two-argument constructor `metal::metal(const color& a, double f)`:
`albedo(a), fuzz(f < 1 ? f : 1)`. -/
def metal.new (a : color K) (f : K) : metal K := ⟨a, if f < 1 then f else 1⟩

/-! ## hittable.h -/

/-- The struct `hit_record`. -/
structure hit_record (K : Type) where
  point : point3 K
  normal : vec3 K
  material_ptr : material K
  t : K
  is_front_facing : Bool

/-- The member `hit_record::set_face_normal`, returning the updated record. -/
def hit_record.set_face_normal (rec : hit_record K) (r : ray K) (outward_norm : vec3 K) :
    hit_record K :=
  let rec1 := { rec with is_front_facing := decide (dot r.direction outward_norm < 0) }
  if rec1.is_front_facing then
    { rec1 with normal := outward_norm }
  else
    { rec1 with normal := -outward_norm }

/-! ## sphere.h -/

/-- The class `sphere`: its private members `center_`, `radius_`, `material_ptr`. -/
structure sphere (K : Type) where
  center_ : point3 K
  radius_ : K
  material_ptr : material K

/-- The method `sphere::hit`.  `rec` is the caller's record; the result is `none`
when the method returns `false` (the record is then left untouched) and
`some rec1` when it returns `true` with the record updated to `rec1`. -/
def sphere.hit (sqrt : K → K) (s : sphere K) (r : ray K) (t_min : K) (t_max : WithTop K)
    (rec : hit_record K) : Option (hit_record K) :=
  let toSphere := r.origin - s.center_
  let dir := r.direction
  let a := dir.length_squared
  let half_b := dot toSphere dir
  let c := toSphere.length_squared - s.radius_ * s.radius_
  let discriminant := half_b * half_b - a * c
  if discriminant > 0 then
    let root := sqrt discriminant
    let t := (-half_b - root) / a
    if (t : WithTop K) < t_max ∧ t > t_min then
      let rec1 := { rec with t := t }
      let rec2 := { rec1 with point := r.point_at t }
      let outward_norm := (rec2.point - s.center_).div s.radius_
      let rec3 := rec2.set_face_normal r outward_norm
      some { rec3 with material_ptr := s.material_ptr }
    else
      let t := (-half_b + root) / a
      if (t : WithTop K) < t_max ∧ t > t_min then
        let rec1 := { rec with t := t }
        let rec2 := { rec1 with point := r.point_at t }
        let outward_norm := (rec2.point - s.center_).div s.radius_
        let rec3 := rec2.set_face_normal r outward_norm
        some { rec3 with material_ptr := s.material_ptr }
      else
        none
  else
    none

/-! ## material.h: scattering -/

/-- What a call of `material::scatter` leaves behind: the returned `bool` and the
two out-parameters `atten` and `scattered`, which every override assigns on
every path. -/
structure scatter_result (K : Type) where
  returned : Bool
  atten : color K
  scattered : ray K

/-- The method `lambertian::scatter`; `u` is the value returned by its call of
`random_unit_vector()`. -/
def lambertian.scatter (m : lambertian K) (_r_in : ray K) (rec : hit_record K) (u : vec3 K) :
    scatter_result K :=
  let direction := rec.normal + u
  let scattered : ray K := ⟨rec.point, direction⟩
  let atten := m.albedo
  ⟨true, atten, scattered⟩

/-- The method `metal::scatter`; `s` is the value returned by its call of
`random_in_unit_sphere()`. -/
def metal.scatter (sqrt : K → K) (m : metal K) (r_in : ray K) (rec : hit_record K)
    (s : vec3 K) : scatter_result K :=
  let toReflect := r_in.direction.normalized sqrt
  let reflected := reflect toReflect rec.normal
  let scattered : ray K := ⟨rec.point, reflected + vec3.smul m.fuzz s⟩
  let atten := m.albedo
  ⟨decide (dot scattered.direction rec.normal > 0), atten, scattered⟩

/-- The static method `dielectric::reflectance` (Schlick's approximation). -/
def dielectric.reflectance (cosine ref_index : K) : K :=
  let r0 := (1 - ref_index) / (1 + ref_index)
  let r0 := r0 * r0
  let r0 := r0 + (1 - r0) * (1 - cosine) ^ 5
  r0

/-- The method `dielectric::scatter`; `x` is the value returned by its call of
`random_double()`, which is read only when `cant_refract` is false. -/
def dielectric.scatter (sqrt : K → K) (m : dielectric K) (r_in : ray K) (rec : hit_record K)
    (x : K) : scatter_result K :=
  let atten : color K := ⟨1, 1, 1⟩
  let refraction_ratio := if rec.is_front_facing then 1 / m.index else m.index
  let norm := r_in.direction.normalized sqrt
  let cos_theta := min (dot (-norm) rec.normal) 1
  let sin_theta := sqrt (1 - cos_theta * cos_theta)
  let cant_refract := decide (refraction_ratio * sin_theta > 1)
  let direction :=
    if cant_refract ∨ dielectric.reflectance cos_theta refraction_ratio > x then
      reflect norm rec.normal
    else
      refract sqrt norm rec.normal refraction_ratio
  let scattered : ray K := ⟨rec.point, direction⟩
  ⟨true, atten, scattered⟩

/-- The values the three samplers return at one call of `scatter`: only the one
that the material at hand calls is read. -/
structure draws (K : Type) where
  unit_vector : vec3 K
  in_unit_sphere : vec3 K
  uniform : K

/-- The virtual call `material_ptr->scatter(...)`: dispatch on the class of the
object. -/
def material.scatter (sqrt : K → K) (m : material K) (r_in : ray K) (rec : hit_record K)
    (d : draws K) : scatter_result K :=
  match m with
  | .of_lambertian l => l.scatter r_in rec d.unit_vector
  | .of_metal l => l.scatter sqrt r_in rec d.in_unit_sphere
  | .of_dielectric l => l.scatter sqrt r_in rec d.uniform

/-! ## main.cc: ray_color -/

/-- The abstract class `hittable` as `ray_color` uses it: the outcome of
`world.hit(r, t_min, t_max, record)` on a fresh record, `none` for `false`. -/
abbrev hittable (K : Type) := ray K → K → WithTop K → Option (hit_record K)

/-- The function `ray_color`.  The first argument bounds the number of nested
calls and `none` means that this bound was reached; `rnd n` holds the sampler
values of the `n`-th nested call. -/
def ray_color (sqrt : K → K) (world : hittable K) :
    Nat → (Nat → draws K) → ray K → Int → Option (color K)
  | 0, _, _, _ => none
  | fuel + 1, rnd, r, depth =>
    if depth ≤ 0 then
      some ⟨0, 0, 0⟩
    else
      match world r (1 / 1000) ⊤ with
      | some record =>
        let res := record.material_ptr.scatter sqrt r record (rnd 0)
        if res.returned then
          match ray_color sqrt world fuel (fun n => rnd (n + 1)) res.scattered (depth - 1) with
          | some c => some (res.atten * c)
          | none => none
        else
          some ⟨0, 0, 0⟩
      | none =>
        let vec := r.direction.normalized sqrt
        let t := (1 / 2) * (vec.y + 1)
        some (vec3.smul (1 - t) ⟨1, 1, 1⟩ + vec3.smul t ⟨1 / 2, 7 / 10, 1⟩)

/-! ## includes.h, util.h and the samplers of vec3.h -/

/-- The constant `RT_PI` of `includes.h`, the decimal `3.1415926535897932385`. -/
def RT_PI : K := 31415926535897932385 / 10000000000000000000

/-- The function `degrees_to_rads` of `util.h`. -/
def degrees_to_rads (degrees : K) : K := degrees * RT_PI / 180

/-- The function `random_double(min, max)` of `util.h`; `x` is the value returned
by its call of `random_double()`, a number in `[0, 1)`. -/
def random_double_range (min max x : K) : K := min + (max - min) * x

/-- The function `clamp` of `util.h`. -/
def clamp (x min max : K) : K :=
  if x < min then min
  else if x > max then max
  else x

/-- The function `random_unit_vector` of `vec3.h`; `x1` and `x2` are the values
returned by the two calls of `random_double()` it makes, in this order, and
`cos`, `sin` stand for the functions of `<math.h>`. -/
def random_unit_vector (sqrt cos sin : K → K) (x1 x2 : K) : vec3 K :=
  let a := random_double_range 0 (2 * RT_PI) x1
  let z := random_double_range (-1) 1 x2
  let r := sqrt (1 - z * z)
  ⟨r * cos a, r * sin a, z⟩

/-! ## camera.h -/

/-- The class `camera`: its private members. -/
structure camera (K : Type) where
  origin : point3 K
  lower_left : point3 K
  horizontal : vec3 K
  vertical : vec3 K
  u : vec3 K
  v : vec3 K
  w : vec3 K
  lens_radius : K

/-- The constructor `camera::camera`; `tan` stands for the function of `<math.h>`. -/
def camera.new (sqrt tan : K → K) (lookfrom lookat : point3 K) (vup : vec3 K)
    (vfov aspect_ratio aperture focus_dist : K) : camera K :=
  let theta := degrees_to_rads vfov
  let h := tan (theta / 2)
  let viewport_height := 2 * h
  let viewport_width := aspect_ratio * viewport_height
  let w := (lookfrom - lookat).normalized sqrt
  let u := (cross vup w).normalized sqrt
  let v := cross w u
  let origin := lookfrom
  let horizontal := vec3.smul (focus_dist * viewport_width) u
  let vertical := vec3.smul (focus_dist * viewport_height) v
  let lower_left := origin - horizontal.div 2 - vertical.div 2 - vec3.smul focus_dist w
  let lens_radius := aperture / 2
  { origin := origin, lower_left := lower_left, horizontal := horizontal, vertical := vertical,
    u := u, v := v, w := w, lens_radius := lens_radius }

/-- The conversion `static_cast<int>` of a `double`: truncation towards zero. -/
def static_cast_int [FloorRing K] (x : K) : Int :=
  if 0 ≤ x then Int.floor x else Int.ceil x

/-- The function `write_color` of `color.h`: the three integers it writes to the
stream, in the order red, green, blue. -/
def write_color [FloorRing K] (sqrt : K → K) (col : color K) (samples : Int) :
    Int × Int × Int :=
  let min : K := 0
  let max : K := 999 / 1000
  let scale : K := 1 / (samples : K)
  let r := 256 * clamp (sqrt (col.x * scale)) min max
  let g := 256 * clamp (sqrt (col.y * scale)) min max
  let b := 256 * clamp (sqrt (col.z * scale)) min max
  (static_cast_int r, static_cast_int g, static_cast_int b)

/-! ## main.cc: ray_color with the divisions by a length checked

Where a vector of length zero is normalised the program divides by zero; the
quotient is not a number of the field.  The definitions below follow the same
source lines as `vec3.normalized`, `material.scatter` and `ray_color` and differ
from them only in reporting that event instead of giving the quotient a value. -/

/-- The member `vec3::normalized` with its division made partial: for a vector
whose `length()` is zero, `v /= length()` multiplies by `1.0/0`, which is not a
number of the field, and the result is `none`. -/
def vec3.normalized_checked (sqrt : K → K) (v : vec3 K) : Option (vec3 K) :=
  if v.length sqrt = 0 then none else some (v.normalized sqrt)

/-- The virtual call `material_ptr->scatter(...)` with the division by a length
made partial: `metal::scatter` and `dielectric::scatter` start by normalising
`r_in.direction()`, `lambertian::scatter` normalises nothing. -/
def material.scatter_checked (sqrt : K → K) (m : material K) (r_in : ray K)
    (rec : hit_record K) (d : draws K) : Option (scatter_result K) :=
  match m with
  | .of_lambertian l => some (l.scatter r_in rec d.unit_vector)
  | .of_metal l =>
    match r_in.direction.normalized_checked sqrt with
    | some _ => some (l.scatter sqrt r_in rec d.in_unit_sphere)
    | none => none
  | .of_dielectric l =>
    match r_in.direction.normalized_checked sqrt with
    | some _ => some (l.scatter sqrt r_in rec d.uniform)
    | none => none

/-- What an evaluation of `ray_color` with checked divisions ends in: the bound on
the nested calls was reached, or a normalisation divided by a zero length (the
program goes on with NaN components, which are outside the number model), or the
colour that is returned. -/
inductive outcome (K : Type) where
  | out_of_fuel
  | division_by_zero
  | colour (c : color K)

/-- The function `ray_color`, as in `ray_color` above, with the normalisations of
the call checked: that of `r.direction()` in the background branch and that of
the incoming direction in the scatter of a metal or a dielectric. -/
def ray_color_checked (sqrt : K → K) (world : hittable K) :
    Nat → (Nat → draws K) → ray K → Int → outcome K
  | 0, _, _, _ => .out_of_fuel
  | fuel + 1, rnd, r, depth =>
    if depth ≤ 0 then
      .colour ⟨0, 0, 0⟩
    else
      match world r (1 / 1000) ⊤ with
      | some record =>
        match record.material_ptr.scatter_checked sqrt r record (rnd 0) with
        | some res =>
          if res.returned then
            match ray_color_checked sqrt world fuel (fun n => rnd (n + 1)) res.scattered
                (depth - 1) with
            | .colour c => .colour (res.atten * c)
            | .division_by_zero => .division_by_zero
            | .out_of_fuel => .out_of_fuel
          else
            .colour ⟨0, 0, 0⟩
        | none => .division_by_zero
      | none =>
        match r.direction.normalized_checked sqrt with
        | some vec =>
          let t := (1 / 2) * (vec.y + 1)
          .colour (vec3.smul (1 - t) ⟨1, 1, 1⟩ + vec3.smul t ⟨1 / 2, 7 / 10, 1⟩)
        | none => .division_by_zero

end Defs

/-! ## Quantities named in the statements -/

section Named

variable {K : Type} [LinearOrderedField K]

/-- The zero vector, the value of the default constructor `vec3()`. -/
def vec3.zero : vec3 K := ⟨0, 0, 0⟩

/-- The local variable `a` of `sphere::hit`: `dir.length_squared()`. -/
def hit_a (r : ray K) : K := r.direction.length_squared

/-- The local variable `half_b` of `sphere::hit`: `dot(toSphere, dir)`. -/
def hit_half_b (s : sphere K) (r : ray K) : K := dot (r.origin - s.center_) r.direction

/-- The local variable `c` of `sphere::hit`. -/
def hit_c (s : sphere K) (r : ray K) : K :=
  (r.origin - s.center_).length_squared - s.radius_ * s.radius_

/-- The local variable `discriminant` of `sphere::hit`. -/
def hit_discriminant (s : sphere K) (r : ray K) : K :=
  hit_half_b s r * hit_half_b s r - hit_a r * hit_c s r

/-- The first value of the local variable `t` of `sphere::hit`: the smaller root. -/
def hit_root_minus (sqrt : K → K) (s : sphere K) (r : ray K) : K :=
  (-hit_half_b s r - sqrt (hit_discriminant s r)) / hit_a r

/-- The second value of the local variable `t` of `sphere::hit`: the larger root. -/
def hit_root_plus (sqrt : K → K) (s : sphere K) (r : ray K) : K :=
  (-hit_half_b s r + sqrt (hit_discriminant s r)) / hit_a r

/-- The test `t < t_max && t > t_min` of `sphere::hit`. -/
def in_range (t_min : K) (t_max : WithTop K) (t : K) : Prop :=
  (t : WithTop K) < t_max ∧ t > t_min

instance (t_min : K) (t_max : WithTop K) (t : K) : Decidable (in_range t_min t_max t) :=
  inferInstanceAs (Decidable ((t : WithTop K) < t_max ∧ t > t_min))

/-- The local variable `outward_norm` of `sphere::hit` for the parameter `t`. -/
def hit_outward_norm (s : sphere K) (r : ray K) (t : K) : vec3 K :=
  (r.point_at t - s.center_).div s.radius_

/-- The record `sphere::hit` leaves in `rec` when it accepts the parameter `t`. -/
def hit_record_at (s : sphere K) (r : ray K) (t : K) : hit_record K :=
  { point := r.point_at t
    normal := if dot r.direction (hit_outward_norm s r t) < 0 then hit_outward_norm s r t
      else -hit_outward_norm s r t
    material_ptr := s.material_ptr
    t := t
    is_front_facing := decide (dot r.direction (hit_outward_norm s r t) < 0) }

/-- The sphere of the end-to-end example: radius `0.5`, centre `(0,0,-1)`. -/
def demo_sphere : sphere K := ⟨⟨0, 0, -1⟩, 1 / 2, .of_lambertian ⟨⟨1 / 2, 1 / 2, 1 / 2⟩⟩⟩

/-- The ray of the end-to-end example: from the origin down the negative z-axis. -/
def demo_ray : ray K := ⟨⟨0, 0, 0⟩, ⟨0, 0, -1⟩⟩

/-- A ray that touches `demo_sphere` in exactly one point. -/
def tangent_ray : ray K := ⟨⟨1 / 2, 0, 0⟩, ⟨0, 0, -1⟩⟩

/-- A record as the caller holds it before the call of `hit`. -/
def blank_record : hit_record K :=
  ⟨⟨0, 0, 0⟩, ⟨0, 0, 0⟩, .of_dielectric ⟨1⟩, 0, false⟩

/-- The blend the background is described by: `(1 - t)*(1,1,1) + t*(0.5,0.7,1.0)`
with `t = (y + 1)/2`. -/
def sky_blend (y : K) : color K :=
  vec3.smul (1 - (y + 1) / 2) ⟨1, 1, 1⟩ + vec3.smul ((y + 1) / 2) ⟨1 / 2, 7 / 10, 1⟩

/-- Modelled from the spec: `hittable_list.h` is not among the sources.  The empty
scene scans no primitive, so its `hit` returns false. -/
def empty_world : hittable K := fun _ _ _ => none

/-- Sampler values for the examples. -/
def demo_draws : Nat → draws K := fun _ => ⟨⟨0, 0, 1⟩, ⟨0, 0, 0⟩, 0⟩

/-- A ray pointed straight up. -/
def up_ray : ray K := ⟨⟨0, 0, 0⟩, ⟨0, 1, 0⟩⟩

/-- A ray pointed upwards at a slant, direction `(0, 3, 4)` of length `5`. -/
def slanted_ray : ray K := ⟨⟨0, 0, 0⟩, ⟨0, 3, 4⟩⟩

/-- A ray pointed straight down. -/
def down_ray : ray K := ⟨⟨0, 0, 0⟩, ⟨0, -1, 0⟩⟩

/-- A record whose normal is the z-axis: a horizontal surface seen from above. -/
def floor_record : hit_record K :=
  ⟨⟨0, 0, 0⟩, ⟨0, 0, 1⟩, .of_metal ⟨⟨1, 1, 1⟩, 0⟩, 1, true⟩

/-- A ray falling straight onto the surface of `floor_record`. -/
def falling_ray : ray K := ⟨⟨0, 0, 1⟩, ⟨0, 0, -1⟩⟩

/-- A ray coming in under a shallow angle, direction `(4, 0, -3)`. -/
def grazing_ray : ray K := ⟨⟨-4, 0, 3⟩, ⟨4, 0, -3⟩⟩

/-- The scene that holds `demo_sphere` alone, as `ray_color` sees it. -/
def demo_world (sqrt : K → K) : hittable K :=
  fun r t_min t_max => (demo_sphere : sphere K).hit sqrt r t_min t_max blank_record

/-- A sampler value of squared length `0.81`, pointing into the surface of
`floor_record`. -/
def inward_sample : vec3 K := ⟨0, 0, -(9 / 10)⟩

/-- The value `R0 = ((1 - rho)/(1 + rho))^2` of Schlick's approximation. -/
def schlick_r0 (rho : K) : K := ((1 - rho) / (1 + rho)) ^ 2

/-- The local variable `refraction_ratio` of `dielectric::scatter`. -/
def scatter_ratio (m : dielectric K) (rec : hit_record K) : K :=
  if rec.is_front_facing then 1 / m.index else m.index

/-- The local variable `cos_theta` of `dielectric::scatter`. -/
def scatter_cos (sqrt : K → K) (r_in : ray K) (rec : hit_record K) : K :=
  min (dot (-(r_in.direction.normalized sqrt)) rec.normal) 1

/-- The local variable `sin_theta` of `dielectric::scatter`. -/
def scatter_sin (sqrt : K → K) (r_in : ray K) (rec : hit_record K) : K :=
  sqrt (1 - scatter_cos sqrt r_in rec * scatter_cos sqrt r_in rec)

/-- The component of `v` perpendicular to `n`: `v - (v.n) n`. -/
def perp (v n : vec3 K) : vec3 K := v - vec3.smul (dot v n) n

/-- A camera at `(0,0,1)` looking at the origin, `vup = (0,1,0)`, field of view
`90` degrees, aspect ratio `2`, aperture `0`, focus distance `1`. -/
def demo_camera (sqrt tan : K → K) : camera K :=
  camera.new sqrt tan ⟨0, 0, 1⟩ ⟨0, 0, 0⟩ ⟨0, 1, 0⟩ 90 2 0 1

end Named

/-! ## Basic facts -/

section Basic

variable {K : Type} [LinearOrderedField K]

@[simp] theorem vec3.neg_x (v : vec3 K) : (-v).x = -v.x := rfl
@[simp] theorem vec3.neg_y (v : vec3 K) : (-v).y = -v.y := rfl
@[simp] theorem vec3.neg_z (v : vec3 K) : (-v).z = -v.z := rfl
@[simp] theorem vec3.add_x (v w : vec3 K) : (v + w).x = v.x + w.x := rfl
@[simp] theorem vec3.add_y (v w : vec3 K) : (v + w).y = v.y + w.y := rfl
@[simp] theorem vec3.add_z (v w : vec3 K) : (v + w).z = v.z + w.z := rfl
@[simp] theorem vec3.sub_x (v w : vec3 K) : (v - w).x = v.x - w.x := rfl
@[simp] theorem vec3.sub_y (v w : vec3 K) : (v - w).y = v.y - w.y := rfl
@[simp] theorem vec3.sub_z (v w : vec3 K) : (v - w).z = v.z - w.z := rfl
@[simp] theorem vec3.smul_x (t : K) (v : vec3 K) : (vec3.smul t v).x = v.x * t := rfl
@[simp] theorem vec3.smul_y (t : K) (v : vec3 K) : (vec3.smul t v).y = v.y * t := rfl
@[simp] theorem vec3.smul_z (t : K) (v : vec3 K) : (vec3.smul t v).z = v.z * t := rfl
@[simp] theorem vec3.div_x (v : vec3 K) (t : K) : (v.div t).x = v.x * (1 / t) := rfl
@[simp] theorem vec3.div_y (v : vec3 K) (t : K) : (v.div t).y = v.y * (1 / t) := rfl
@[simp] theorem vec3.div_z (v : vec3 K) (t : K) : (v.div t).z = v.z * (1 / t) := rfl

/-- The real square root meets the assumption made of `sqrt`. -/
theorem isSqrt_real : IsSqrt Real.sqrt :=
  fun x hx => ⟨Real.sqrt_nonneg x, Real.mul_self_sqrt hx⟩

/-- Under `IsSqrt`, the square root of a positive number is positive. -/
theorem IsSqrt.pos {sqrt : K → K} (h : IsSqrt sqrt) {x : K} (hx : 0 < x) : 0 < sqrt x := by
  obtain ⟨h0, h1⟩ := h x hx.le
  rcases h0.eq_or_lt with h2 | h2
  · rw [← h2] at h1; simp at h1; exact absurd h1.symm hx.ne'
  · exact h2

/-- Under `IsSqrt`, the square root of the square of a non-negative number is
that number. -/
theorem IsSqrt.sqrt_mul_self {sqrt : K → K} (h : IsSqrt sqrt) {x : K} (hx : 0 ≤ x) :
    sqrt (x * x) = x := by
  obtain ⟨h0, h1⟩ := h (x * x) (mul_nonneg hx hx)
  nlinarith [mul_self_eq_mul_self_iff.mp h1]

/-- A vector other than the zero vector has a positive squared length. -/
theorem vec3.length_squared_pos {v : vec3 K} (hv : v ≠ vec3.zero) : 0 < v.length_squared := by
  have h0 : 0 ≤ v.length_squared := by
    unfold vec3.length_squared
    nlinarith [mul_self_nonneg v.x, mul_self_nonneg v.y, mul_self_nonneg v.z]
  rcases h0.eq_or_lt with h | h
  · exfalso
    apply hv
    unfold vec3.length_squared at h
    have hx : v.x = 0 := by nlinarith [mul_self_nonneg v.x, mul_self_nonneg v.y, mul_self_nonneg v.z]
    have hy : v.y = 0 := by nlinarith [mul_self_nonneg v.x, mul_self_nonneg v.y, mul_self_nonneg v.z]
    have hz : v.z = 0 := by nlinarith [mul_self_nonneg v.x, mul_self_nonneg v.y, mul_self_nonneg v.z]
    exact vec3.ext hx hy hz
  · exact h

/-- How `sphere::hit` branches: on the sign of the discriminant, then on the
smaller root, then on the larger root. -/
theorem sphere_hit_eq (sqrt : K → K) (s : sphere K) (r : ray K) (t_min : K)
    (t_max : WithTop K) (rec : hit_record K) :
    s.hit sqrt r t_min t_max rec =
      if hit_discriminant s r > 0 then
        if in_range t_min t_max (hit_root_minus sqrt s r) then
          some (hit_record_at s r (hit_root_minus sqrt s r))
        else if in_range t_min t_max (hit_root_plus sqrt s r) then
          some (hit_record_at s r (hit_root_plus sqrt s r))
        else none
      else none := by
  unfold sphere.hit hit_record_at hit_record.set_face_normal in_range
  simp only [hit_discriminant, hit_root_minus, hit_root_plus, hit_half_b, hit_a, hit_c,
    hit_outward_norm]
  split_ifs <;> simp_all

/-- A squared length is never negative. -/
theorem vec3.length_squared_nonneg (v : vec3 K) : 0 ≤ v.length_squared := by
  unfold vec3.length_squared
  nlinarith [mul_self_nonneg v.x, mul_self_nonneg v.y, mul_self_nonneg v.z]

/-- One is its own square root. -/
theorem IsSqrt.sqrt_one {sqrt : K → K} (h : IsSqrt sqrt) : sqrt 1 = 1 := by
  have := h.sqrt_mul_self (show (0 : K) ≤ 1 by norm_num)
  rwa [mul_one] at this

/-- A point `r.at(t)` whose parameter solves the quadratic lies on the sphere. -/
theorem point_at_on_sphere (s : sphere K) (r : ray K) (t e : K) (ha : hit_a r ≠ 0)
    (he : hit_a r * t + hit_half_b s r = e) (hee : e * e = hit_discriminant s r) :
    (r.point_at t - s.center_).length_squared = s.radius_ * s.radius_ := by
  apply mul_left_cancel₀ ha
  simp only [hit_a, hit_half_b, hit_discriminant, hit_c, dot, vec3.length_squared, ray.point_at,
    vec3.sub_x, vec3.sub_y, vec3.sub_z, vec3.add_x, vec3.add_y, vec3.add_z, vec3.smul_x,
    vec3.smul_y, vec3.smul_z] at *
  linear_combination (r.direction.x * r.direction.x + r.direction.y * r.direction.y +
    r.direction.z * r.direction.z) * t * he + ((r.origin.x - s.center_.x) * r.direction.x +
    (r.origin.y - s.center_.y) * r.direction.y + (r.origin.z - s.center_.z) * r.direction.z) * he
    + e * he + hee

/-- The direction and the vector from the centre to `r.at(t)` have dot product
`a * t + half_b`. -/
theorem dot_direction_point_at (s : sphere K) (r : ray K) (t : K) :
    dot r.direction (r.point_at t - s.center_) = hit_a r * t + hit_half_b s r := by
  simp only [hit_a, hit_half_b, dot, vec3.length_squared, ray.point_at,
    vec3.sub_x, vec3.sub_y, vec3.sub_z, vec3.add_x, vec3.add_y, vec3.add_z, vec3.smul_x,
    vec3.smul_y, vec3.smul_z]
  ring

/-- The outward normal at a point that solves the quadratic: unit length, and its
dot product with the direction is `(a * t + half_b) / radius`. -/
theorem hit_outward_norm_facts (s : sphere K) (r : ray K) (t e : K) (ha : hit_a r ≠ 0)
    (hrad : s.radius_ ≠ 0)
    (he : hit_a r * t + hit_half_b s r = e) (hee : e * e = hit_discriminant s r) :
    (hit_outward_norm s r t).length_squared = 1 ∧
      dot r.direction (hit_outward_norm s r t) = e / s.radius_ := by
  have h1 := point_at_on_sphere s r t e ha he hee
  have h2 := dot_direction_point_at s r t
  rw [he] at h2
  constructor
  · simp only [hit_outward_norm, vec3.length_squared, vec3.div_x, vec3.div_y, vec3.div_z,
      vec3.sub_x, vec3.sub_y, vec3.sub_z] at h1 ⊢
    field_simp
    linear_combination h1
  · simp only [hit_outward_norm, dot, vec3.div_x, vec3.div_y, vec3.div_z,
      vec3.sub_x, vec3.sub_y, vec3.sub_z] at h2 ⊢
    field_simp
    linear_combination h2

/-- Under `IsSqrt`, a non-zero vector divided by its length has squared length one. -/
theorem normalized_length_squared {sqrt : K → K} (h : IsSqrt sqrt) {v : vec3 K}
    (hv : v ≠ vec3.zero) : (v.normalized sqrt).length_squared = 1 := by
  have hpos := vec3.length_squared_pos hv
  obtain ⟨-, h2⟩ := h _ hpos.le
  have h3 := (h.pos hpos).ne'
  simp only [vec3.normalized, vec3.length, vec3.div_assign, vec3.mul_assign] at *
  generalize sqrt v.length_squared = d at *
  simp only [vec3.length_squared] at *
  field_simp
  linear_combination -h2

/-- The components of a normalised vector. -/
theorem normalized_eq (sqrt : K → K) (v : vec3 K) :
    v.normalized sqrt = vec3.smul (1 / v.length sqrt) v := rfl

/-- The vertical component of a normalised non-zero vector lies in `[-1, 1]`. -/
theorem normalized_y_mem {sqrt : K → K} (h : IsSqrt sqrt) {v : vec3 K} (hv : v ≠ vec3.zero) :
    -1 ≤ (v.normalized sqrt).y ∧ (v.normalized sqrt).y ≤ 1 := by
  have h1 := normalized_length_squared h hv
  simp only [vec3.length_squared] at h1
  constructor <;>
    nlinarith [mul_self_nonneg (v.normalized sqrt).x, mul_self_nonneg (v.normalized sqrt).z,
      mul_self_nonneg ((v.normalized sqrt).y - 1), mul_self_nonneg ((v.normalized sqrt).y + 1)]

end Basic

/-! ## sphere::hit -/

section SphereHit

variable {K : Type} [LinearOrderedField K]

/-- The discriminant of the end-to-end example is `1/4`. -/
theorem demo_discriminant : hit_discriminant (demo_sphere : sphere K) demo_ray = 1 / 4 := by
  simp only [hit_discriminant, hit_half_b, hit_a, hit_c, demo_sphere, demo_ray, dot,
    vec3.length_squared, vec3.sub_x, vec3.sub_y, vec3.sub_z]
  norm_num

/-- The smaller root of the end-to-end example is `1/2`. -/
theorem demo_root_minus {sqrt : K → K} (h : IsSqrt sqrt) :
    hit_root_minus sqrt (demo_sphere : sphere K) demo_ray = 1 / 2 := by
  have h4 : sqrt (1 / 4 : K) = 1 / 2 := by
    have := h.sqrt_mul_self (show (0 : K) ≤ 1 / 2 by norm_num)
    rwa [show (1 / 2 : K) * (1 / 2) = 1 / 4 by norm_num] at this
  unfold hit_root_minus
  rw [demo_discriminant, h4]
  simp only [hit_half_b, hit_a, demo_sphere, demo_ray, dot,
    vec3.length_squared, vec3.sub_x, vec3.sub_y, vec3.sub_z]
  norm_num

/-- The larger root of the end-to-end example is `3/2`. -/
theorem demo_root_plus {sqrt : K → K} (h : IsSqrt sqrt) :
    hit_root_plus sqrt (demo_sphere : sphere K) demo_ray = 3 / 2 := by
  have h4 : sqrt (1 / 4 : K) = 1 / 2 := by
    have := h.sqrt_mul_self (show (0 : K) ≤ 1 / 2 by norm_num)
    rwa [show (1 / 2 : K) * (1 / 2) = 1 / 4 by norm_num] at this
  unfold hit_root_plus
  rw [demo_discriminant, h4]
  simp only [hit_half_b, hit_a, demo_sphere, demo_ray, dot,
    vec3.length_squared, vec3.sub_x, vec3.sub_y, vec3.sub_z]
  norm_num

/-- The direction of the end-to-end example is not the zero vector. -/
theorem demo_ray_direction_ne_zero : (demo_ray : ray K).direction ≠ vec3.zero := by
  intro h
  have := congrArg vec3.z h
  simp [demo_ray, vec3.zero] at this

/-- C1: for a sphere of positive radius, a ray of non-zero direction and
`t_min < t_max`, if the discriminant is positive and both roots lie strictly
inside `(t_min, t_max)`, then `sphere::hit` returns true, the recorded `t` is the
smaller root `(-half_b - sqrt(disc))/a`, and that root is at most the other one. -/
theorem sphere_hit_smaller_root (sqrt : K → K) (hsqrt : IsSqrt sqrt) (s : sphere K)
    (r : ray K) (t_min : K) (t_max : WithTop K) (rec : hit_record K)
    (hrad : 0 < s.radius_) (hdir : r.direction ≠ vec3.zero)
    (hint : (t_min : WithTop K) < t_max)
    (hdisc : 0 < hit_discriminant s r)
    (hminus : in_range t_min t_max (hit_root_minus sqrt s r))
    (hplus : in_range t_min t_max (hit_root_plus sqrt s r)) :
    (∃ rec1, s.hit sqrt r t_min t_max rec = some rec1 ∧ rec1.t = hit_root_minus sqrt s r) ∧
      hit_root_minus sqrt s r ≤ hit_root_plus sqrt s r := by
  refine ⟨⟨hit_record_at s r (hit_root_minus sqrt s r), ?_, rfl⟩, ?_⟩
  · rw [sphere_hit_eq, if_pos hdisc, if_pos hminus]
  · have ha : 0 < hit_a r := vec3.length_squared_pos hdir
    have hroot : 0 ≤ sqrt (hit_discriminant s r) := (hsqrt _ hdisc.le).1
    unfold hit_root_minus hit_root_plus
    exact div_le_div_of_nonneg_right (by linarith) ha.le

/-- C1 at the end-to-end example with the interval `(0.001, 2)`: both roots `1/2`
and `3/2` are inside and the recorded `t` is `1/2`. -/
theorem sphere_hit_smaller_root_witness :
    (∃ rec1, (demo_sphere : sphere ℝ).hit Real.sqrt demo_ray (1 / 1000) ((2 : ℝ) : WithTop ℝ)
        blank_record = some rec1 ∧ rec1.t = hit_root_minus Real.sqrt demo_sphere demo_ray) ∧
      hit_root_minus Real.sqrt (demo_sphere : sphere ℝ) demo_ray
        ≤ hit_root_plus Real.sqrt demo_sphere demo_ray :=
  sphere_hit_smaller_root Real.sqrt isSqrt_real demo_sphere demo_ray (1 / 1000) ((2 : ℝ) : WithTop ℝ)
    blank_record (by norm_num [demo_sphere]) demo_ray_direction_ne_zero
    (by exact WithTop.coe_lt_coe.mpr (by norm_num))
    (by rw [demo_discriminant]; norm_num)
    (by
      rw [demo_root_minus isSqrt_real]
      exact ⟨WithTop.coe_lt_coe.mpr (by norm_num), by norm_num⟩)
    (by
      rw [demo_root_plus isSqrt_real]
      exact ⟨WithTop.coe_lt_coe.mpr (by norm_num), by norm_num⟩)

/-- C2: when the discriminant `half_b^2 - a*c` is exactly zero (a tangent ray)
or negative, `sphere::hit` returns false, whatever the interval. -/
theorem sphere_hit_none_of_discriminant_nonpos (sqrt : K → K) (s : sphere K) (r : ray K)
    (t_min : K) (t_max : WithTop K) (rec : hit_record K)
    (hdisc : hit_discriminant s r ≤ 0) :
    s.hit sqrt r t_min t_max rec = none := by
  rw [sphere_hit_eq, if_neg (not_lt.mpr hdisc)]

/-- C2 at a tangent ray: the discriminant is exactly zero and there is no hit. -/
theorem sphere_hit_none_of_discriminant_nonpos_witness :
    hit_discriminant (demo_sphere : sphere ℝ) tangent_ray = 0 ∧
      (demo_sphere : sphere ℝ).hit Real.sqrt tangent_ray (1 / 1000) ⊤ blank_record = none := by
  have h : hit_discriminant (demo_sphere : sphere ℝ) tangent_ray = 0 := by
    simp only [hit_discriminant, hit_half_b, hit_a, hit_c, demo_sphere, tangent_ray, dot,
      vec3.length_squared, vec3.sub_x, vec3.sub_y, vec3.sub_z]
    norm_num
  exact ⟨h, sphere_hit_none_of_discriminant_nonpos Real.sqrt demo_sphere tangent_ray (1 / 1000) ⊤
    blank_record h.le⟩

/-- C3: for a ray of non-zero direction, `sphere::hit` returns true exactly when
the discriminant is positive and at least one root lies strictly between `t_min`
and `t_max`; the recorded `t` then lies strictly between `t_min` and `t_max`, and
it is the smaller root when that one is in range and the larger root otherwise. -/
theorem sphere_hit_iff (sqrt : K → K) (s : sphere K) (r : ray K) (t_min : K)
    (t_max : WithTop K) (rec : hit_record K) (hdir : r.direction ≠ vec3.zero) :
    ((s.hit sqrt r t_min t_max rec).isSome = true ↔
        0 < hit_discriminant s r ∧
          (in_range t_min t_max (hit_root_minus sqrt s r) ∨
           in_range t_min t_max (hit_root_plus sqrt s r))) ∧
      ∀ rec1, s.hit sqrt r t_min t_max rec = some rec1 →
        t_min < rec1.t ∧ (rec1.t : WithTop K) < t_max ∧
          rec1.t =
            if in_range t_min t_max (hit_root_minus sqrt s r)
            then hit_root_minus sqrt s r else hit_root_plus sqrt s r := by
  rw [sphere_hit_eq]
  constructor
  · split_ifs with h1 h2 h3 <;> simp_all
  · intro rec1 h
    split_ifs at h with h1 h2 h3
    · obtain rfl := Option.some.inj h
      simp only [hit_record_at]
      exact ⟨h2.2, h2.1, (if_pos h2).symm⟩
    · obtain rfl := Option.some.inj h
      simp only [hit_record_at]
      exact ⟨h3.2, h3.1, (if_neg h2).symm⟩

/-- C3 at the end-to-end example with `t_min = 1/2`, the smaller root itself. -/
theorem sphere_hit_iff_witness :
    (((demo_sphere : sphere ℝ).hit Real.sqrt demo_ray (1 / 2) ⊤ blank_record).isSome = true ↔
        0 < hit_discriminant (demo_sphere : sphere ℝ) demo_ray ∧
          (in_range (1 / 2) ⊤ (hit_root_minus Real.sqrt (demo_sphere : sphere ℝ) demo_ray) ∨
           in_range (1 / 2) ⊤ (hit_root_plus Real.sqrt (demo_sphere : sphere ℝ) demo_ray))) ∧
      ∀ rec1, (demo_sphere : sphere ℝ).hit Real.sqrt demo_ray (1 / 2) ⊤ blank_record = some rec1 →
        (1 / 2 : ℝ) < rec1.t ∧ (rec1.t : WithTop ℝ) < ⊤ ∧
          rec1.t =
            if in_range (1 / 2) ⊤ (hit_root_minus Real.sqrt (demo_sphere : sphere ℝ) demo_ray)
            then hit_root_minus Real.sqrt demo_sphere demo_ray
            else hit_root_plus Real.sqrt demo_sphere demo_ray :=
  sphere_hit_iff Real.sqrt demo_sphere demo_ray (1 / 2) ⊤ blank_record demo_ray_direction_ne_zero

/-- C4: for a sphere of positive radius and a ray whose origin lies at distance
`d > radius` from the centre and whose direction is the unit vector from the
origin to the centre, if `t_min < d - radius < t_max` then `sphere::hit` returns
true with `rec.t = d - radius`. -/
theorem sphere_hit_aimed_at_center (sqrt : K → K) (hsqrt : IsSqrt sqrt) (s : sphere K)
    (r : ray K) (t_min : K) (t_max : WithTop K) (rec : hit_record K)
    (hrad : 0 < s.radius_)
    (hdir : r.direction = (s.center_ - r.origin).normalized sqrt)
    (hdist : s.radius_ < (s.center_ - r.origin).length sqrt)
    (hmin : t_min < (s.center_ - r.origin).length sqrt - s.radius_)
    (hmax : (((s.center_ - r.origin).length sqrt - s.radius_ : K) : WithTop K) < t_max) :
    ∃ rec1, s.hit sqrt r t_min t_max rec = some rec1 ∧
      rec1.t = (s.center_ - r.origin).length sqrt - s.radius_ := by
  obtain ⟨hd0, hdd⟩ := hsqrt _ (vec3.length_squared_nonneg (s.center_ - r.origin))
  have hdpos : 0 < (s.center_ - r.origin).length sqrt := lt_trans hrad hdist
  have hdx : r.direction.x = (s.center_.x - r.origin.x) * (1 / (s.center_ - r.origin).length sqrt) := by
    rw [hdir]; rfl
  have hdy : r.direction.y = (s.center_.y - r.origin.y) * (1 / (s.center_ - r.origin).length sqrt) := by
    rw [hdir]; rfl
  have hdz : r.direction.z = (s.center_.z - r.origin.z) * (1 / (s.center_ - r.origin).length sqrt) := by
    rw [hdir]; rfl
  unfold vec3.length at *
  generalize sqrt (s.center_ - r.origin).length_squared = d at *
  simp only [vec3.length_squared, vec3.sub_x, vec3.sub_y, vec3.sub_z] at hdd
  have hd' : d ≠ 0 := hdpos.ne'
  have ha : hit_a r = 1 := by
    simp only [hit_a, vec3.length_squared, hdx, hdy, hdz]
    field_simp
    linear_combination -hdd
  have hb : hit_half_b s r = -d := by
    simp only [hit_half_b, dot, vec3.sub_x, vec3.sub_y, vec3.sub_z, hdx, hdy, hdz]
    field_simp
    linear_combination hdd
  have hc : hit_c s r = d * d - s.radius_ * s.radius_ := by
    simp only [hit_c, vec3.length_squared, vec3.sub_x, vec3.sub_y, vec3.sub_z]
    linear_combination -hdd
  have hdisc : hit_discriminant s r = s.radius_ * s.radius_ := by
    simp only [hit_discriminant, ha, hb, hc]; ring
  have hroot : hit_root_minus sqrt s r = d - s.radius_ := by
    simp only [hit_root_minus, hdisc, ha, hb, hsqrt.sqrt_mul_self hrad.le]; ring
  refine ⟨hit_record_at s r (hit_root_minus sqrt s r), ?_, ?_⟩
  · rw [sphere_hit_eq, if_pos (by rw [hdisc]; exact mul_pos hrad hrad),
      if_pos (by rw [hroot]; exact ⟨hmax, hmin⟩)]
  · simp only [hit_record_at, hroot]

/-- The centre of the end-to-end sphere is at distance `1` from the ray origin. -/
theorem demo_distance {sqrt : K → K} (h : IsSqrt sqrt) :
    ((demo_sphere : sphere K).center_ - (demo_ray : ray K).origin).length sqrt = 1 := by
  have h1 : ((demo_sphere : sphere K).center_ - (demo_ray : ray K).origin).length_squared = 1 := by
    simp only [demo_sphere, demo_ray, vec3.length_squared, vec3.sub_x, vec3.sub_y, vec3.sub_z]
    norm_num
  unfold vec3.length
  rw [h1, h.sqrt_one]

/-- The direction of the end-to-end ray is the unit vector towards the centre. -/
theorem demo_direction {sqrt : K → K} (h : IsSqrt sqrt) :
    (demo_ray : ray K).direction
      = ((demo_sphere : sphere K).center_ - (demo_ray : ray K).origin).normalized sqrt := by
  unfold vec3.normalized
  rw [demo_distance h]
  ext <;> simp [demo_sphere, demo_ray, vec3.div_assign, vec3.mul_assign]

/-- C4 at the end-to-end example: centre `(0,0,-1)`, radius `0.5`, origin
`(0,0,0)`, direction `(0,0,-1)`, `t_min = 0.001`, `t_max` infinite give
`rec.t = 0.5`. -/
theorem sphere_hit_aimed_at_center_witness :
    ∃ rec1, (demo_sphere : sphere ℝ).hit Real.sqrt demo_ray (1 / 1000) ⊤ blank_record = some rec1 ∧
      rec1.t = 1 / 2 := by
  have h := sphere_hit_aimed_at_center Real.sqrt isSqrt_real (demo_sphere : sphere ℝ) demo_ray
    (1 / 1000) ⊤ blank_record (by norm_num [demo_sphere]) (demo_direction isSqrt_real)
    (by rw [demo_distance isSqrt_real]; norm_num [demo_sphere])
    (by rw [demo_distance isSqrt_real]; norm_num [demo_sphere])
    (WithTop.coe_lt_top _)
  rw [demo_distance isSqrt_real] at h
  obtain ⟨rec1, h1, h2⟩ := h
  exact ⟨rec1, h1, by rw [h2]; norm_num [demo_sphere]⟩

/-- C5: for a sphere of positive radius and a ray of non-zero direction for which
`sphere::hit` returns true, the recorded normal has unit length, faces against
the ray (`dot(ray.direction, rec.normal) < 0`), and `rec.is_front_facing` is true
exactly when the normal is the unflipped outward normal
`(rec.point - center) / radius`. -/
theorem sphere_hit_normal (sqrt : K → K) (hsqrt : IsSqrt sqrt) (s : sphere K) (r : ray K)
    (t_min : K) (t_max : WithTop K) (rec rec1 : hit_record K)
    (hrad : 0 < s.radius_) (hdir : r.direction ≠ vec3.zero)
    (hhit : s.hit sqrt r t_min t_max rec = some rec1) :
    rec1.normal.length_squared = 1 ∧ rec1.normal.length sqrt = 1 ∧
      dot r.direction rec1.normal < 0 ∧
      (rec1.is_front_facing = true ↔ rec1.normal = (rec1.point - s.center_).div s.radius_) := by
  have ha : 0 < hit_a r := vec3.length_squared_pos hdir
  rw [sphere_hit_eq] at hhit
  by_cases hdisc : hit_discriminant s r > 0
  swap
  · rw [if_neg hdisc] at hhit; exact absurd hhit (by simp)
  rw [if_pos hdisc] at hhit
  obtain ⟨hroot0, hroot⟩ := hsqrt _ hdisc.le
  have hrootpos := hsqrt.pos hdisc
  -- both accepted parameters solve the quadratic, with `a * t + half_b = e`, `e * e = disc`
  have key : ∀ t e : K, hit_a r * t + hit_half_b s r = e → e * e = hit_discriminant s r →
      e ≠ 0 → rec1 = hit_record_at s r t →
      rec1.normal.length_squared = 1 ∧ rec1.normal.length sqrt = 1 ∧
      dot r.direction rec1.normal < 0 ∧
      (rec1.is_front_facing = true ↔ rec1.normal = (rec1.point - s.center_).div s.radius_) := by
    intro t e he hee hne hrec
    obtain ⟨hn, hd⟩ := hit_outward_norm_facts s r t e ha.ne' hrad.ne' he hee
    have hneg : (-hit_outward_norm s r t).length_squared = 1 := by
      rw [← hn]; simp only [vec3.length_squared, vec3.neg_x, vec3.neg_y, vec3.neg_z]; ring
    have hdneg : dot r.direction (-hit_outward_norm s r t) = -(e / s.radius_) := by
      rw [← hd]; simp only [dot, vec3.neg_x, vec3.neg_y, vec3.neg_z]; ring
    have hpoint : (rec1.point - s.center_).div s.radius_ = hit_outward_norm s r t := by
      rw [hrec]; rfl
    rw [hpoint]
    subst hrec
    simp only [hit_record_at, hd]
    by_cases hlt : e / s.radius_ < 0
    · simp only [hlt, if_true, decide_True, true_iff]
      refine ⟨hn, ?_, ?_⟩
      · unfold vec3.length; rw [hn]; exact hsqrt.sqrt_one
      · exact ⟨by rw [hd]; exact hlt, trivial⟩
    · simp only [hlt, if_false, decide_False]
      have hpos : 0 < e / s.radius_ := by
        rcases (not_lt.mp hlt).eq_or_lt with h0 | h0
        · exact absurd (div_eq_zero_iff.mp h0.symm) (by simp [hne, hrad.ne'])
        · exact h0
      refine ⟨hneg, ?_, ?_, ?_⟩
      · unfold vec3.length; rw [hneg]; exact hsqrt.sqrt_one
      · rw [hdneg]; linarith
      · constructor
        · intro h; exact absurd h (by simp)
        · intro h
          exfalso
          have := congrArg (dot r.direction) h
          rw [hdneg, hd] at this
          linarith
  split_ifs at hhit with h1 h2
  · refine key (hit_root_minus sqrt s r) (-sqrt (hit_discriminant s r)) ?_ ?_ ?_
      (Option.some.inj hhit).symm
    · unfold hit_root_minus; field_simp; ring
    · rw [neg_mul_neg]; exact hroot
    · exact (neg_neg_of_pos hrootpos).ne
  · refine key (hit_root_plus sqrt s r) (sqrt (hit_discriminant s r)) ?_ ?_ ?_
      (Option.some.inj hhit).symm
    · unfold hit_root_plus; field_simp
    · exact hroot
    · exact hrootpos.ne'

/-- The hit of the end-to-end example, for any caller's record. -/
theorem demo_hit {sqrt : K → K} (h : IsSqrt sqrt) (rec : hit_record K) :
    (demo_sphere : sphere K).hit sqrt demo_ray (1 / 1000) ⊤ rec
      = some (hit_record_at demo_sphere demo_ray (1 / 2)) := by
  rw [sphere_hit_eq, if_pos (by rw [demo_discriminant]; norm_num), demo_root_minus h,
    if_pos ⟨WithTop.coe_lt_top _, by norm_num⟩]

/-- C5 at the end-to-end example. -/
theorem sphere_hit_normal_witness :
    (hit_record_at (demo_sphere : sphere ℝ) demo_ray (1 / 2)).normal.length_squared = 1 ∧
      (hit_record_at (demo_sphere : sphere ℝ) demo_ray (1 / 2)).normal.length Real.sqrt = 1 ∧
      dot (demo_ray : ray ℝ).direction (hit_record_at (demo_sphere : sphere ℝ) demo_ray (1 / 2)).normal
        < 0 ∧
      ((hit_record_at (demo_sphere : sphere ℝ) demo_ray (1 / 2)).is_front_facing = true ↔
        (hit_record_at (demo_sphere : sphere ℝ) demo_ray (1 / 2)).normal =
          ((hit_record_at (demo_sphere : sphere ℝ) demo_ray (1 / 2)).point
            - (demo_sphere : sphere ℝ).center_).div (demo_sphere : sphere ℝ).radius_) :=
  sphere_hit_normal Real.sqrt isSqrt_real demo_sphere demo_ray (1 / 1000) ⊤ blank_record _
    (by norm_num [demo_sphere]) demo_ray_direction_ne_zero (demo_hit isSqrt_real blank_record)

end SphereHit

/-! ## ray_color -/

section RayColor

variable {K : Type} [LinearOrderedField K]

/-- With more fuel than `depth`, `ray_color` returns a colour. -/
theorem ray_color_isSome (sqrt : K → K) (world : hittable K) :
    ∀ (fuel : Nat) (rnd : Nat → draws K) (r : ray K) (depth : Int),
      depth.toNat < fuel → ∃ c, ray_color sqrt world fuel rnd r depth = some c := by
  intro fuel
  induction fuel with
  | zero => intro rnd r depth h; exact absurd h (Nat.not_lt_zero _)
  | succ n ih =>
    intro rnd r depth h
    unfold ray_color
    by_cases hd : depth ≤ 0
    · exact ⟨_, if_pos hd⟩
    · rw [if_neg hd]
      cases hw : world r (1 / 1000) ⊤ with
      | none => exact ⟨_, rfl⟩
      | some record =>
        simp only []
        by_cases hs : (record.material_ptr.scatter sqrt r record (rnd 0)).returned = true
        · rw [if_pos hs]
          obtain ⟨c, hc⟩ := ih (fun k => rnd (k + 1))
            (record.material_ptr.scatter sqrt r record (rnd 0)).scattered (depth - 1) (by omega)
          rw [hc]
          exact ⟨_, rfl⟩
        · rw [if_neg hs]
          exact ⟨_, rfl⟩

/-- C6: `ray_color(ray, scene, 0)` is black whatever the scene is, and with more
fuel than `depth` nested calls `ray_color` returns a colour: the recursion ends
because every recursive call is made with `depth - 1`. -/
theorem ray_color_depth_zero (sqrt : K → K) (world : hittable K) (fuel : Nat)
    (rnd : Nat → draws K) (r : ray K) (depth : Int) (hfuel : depth.toNat < fuel) :
    (∀ world1 : hittable K, ray_color sqrt world1 fuel rnd r 0 = some ⟨0, 0, 0⟩) ∧
      ∃ c, ray_color sqrt world fuel rnd r depth = some c := by
  refine ⟨fun world1 => ?_, ray_color_isSome sqrt world fuel rnd r depth hfuel⟩
  obtain ⟨n, rfl⟩ : ∃ n, fuel = n + 1 := ⟨fuel - 1, by omega⟩
  unfold ray_color
  exact if_pos le_rfl

/-- C6 at depth `2` in the scene of the end-to-end example. -/
theorem ray_color_depth_zero_witness :
    (∀ world1 : hittable ℝ, ray_color Real.sqrt world1 3 demo_draws demo_ray 0 = some ⟨0, 0, 0⟩) ∧
      ∃ c, ray_color Real.sqrt (demo_world Real.sqrt) 3 demo_draws demo_ray 2 = some c :=
  ray_color_depth_zero Real.sqrt (demo_world Real.sqrt) 3 demo_draws demo_ray 2 (by decide)

/-- On a miss with positive depth `ray_color` is the background expression. -/
theorem ray_color_miss (sqrt : K → K) (world : hittable K) (fuel : Nat) (rnd : Nat → draws K)
    (r : ray K) (depth : Int) (hdepth : 1 ≤ depth)
    (hmiss : world r (1 / 1000) ⊤ = none) :
    ray_color sqrt world (fuel + 1) rnd r depth
      = some (sky_blend (r.direction.normalized sqrt).y) := by
  unfold ray_color
  rw [if_neg (by omega), hmiss]
  simp only [sky_blend]
  congr 3 <;> ring

/-- The normalised form of a vector of squared length one is the vector. -/
theorem normalized_of_length_squared_one {sqrt : K → K} (h : IsSqrt sqrt) (v : vec3 K)
    (hv : v.length_squared = 1) : v.normalized sqrt = v := by
  unfold vec3.normalized vec3.length
  rw [hv, h.sqrt_one]
  ext <;> simp [vec3.div_assign, vec3.mul_assign]

/-- The direction `(0,3,4)` normalises to `(0, 3/5, 4/5)`. -/
theorem slanted_normalized {sqrt : K → K} (h : IsSqrt sqrt) :
    (slanted_ray : ray K).direction.normalized sqrt = ⟨0, 3 / 5, 4 / 5⟩ := by
  have h25 : (slanted_ray : ray K).direction.length_squared = 5 * 5 := by
    simp only [slanted_ray, vec3.length_squared]; norm_num
  unfold vec3.normalized vec3.length
  rw [h25, h.sqrt_mul_self (by norm_num)]
  ext <;> simp [slanted_ray, vec3.div_assign, vec3.mul_assign] <;> norm_num

/-- C7: for depth at least one and a ray of non-zero direction that hits nothing,
`ray_color` returns `(1 - t)*(1,1,1) + t*(0.5,0.7,1.0)` with `t = (y + 1)/2`, where
`y` is the vertical component of the normalised direction: the direction divided
by its positive length, a vector of unit length, so that `-1 <= y <= 1` and every
channel of the result lies between the two constants `(0.5,0.7,1.0)` and `(1,1,1)`;
straight up gives `(0.5,0.7,1.0)`, straight down gives `(1,1,1)`, and every
channel of the blend is non-increasing in `y`. -/
theorem ray_color_background (sqrt : K → K) (hsqrt : IsSqrt sqrt) (world : hittable K)
    (fuel : Nat) (rnd : Nat → draws K) (r : ray K) (depth : Int) (hfuel : 0 < fuel)
    (hdepth : 1 ≤ depth) (hdir : r.direction ≠ vec3.zero)
    (hmiss : world r (1 / 1000) ⊤ = none) :
    ray_color sqrt world fuel rnd r depth
        = some (sky_blend (r.direction.normalized sqrt).y) ∧
      (0 < r.direction.length sqrt ∧
        r.direction.normalized sqrt = vec3.smul (1 / r.direction.length sqrt) r.direction ∧
        (r.direction.normalized sqrt).length_squared = 1 ∧
        -1 ≤ (r.direction.normalized sqrt).y ∧ (r.direction.normalized sqrt).y ≤ 1) ∧
      (∃ c, ray_color sqrt world fuel rnd r depth = some c ∧
        (1 / 2 ≤ c.x ∧ c.x ≤ 1) ∧ (7 / 10 ≤ c.y ∧ c.y ≤ 1) ∧ c.z = 1) ∧
      (r.direction = ⟨0, 1, 0⟩ →
        ray_color sqrt world fuel rnd r depth = some ⟨1 / 2, 7 / 10, 1⟩) ∧
      (r.direction = ⟨0, -1, 0⟩ →
        ray_color sqrt world fuel rnd r depth = some ⟨1, 1, 1⟩) ∧
      ∀ y1 y2 : K, y1 ≤ y2 →
        (sky_blend y2).x ≤ (sky_blend y1).x ∧ (sky_blend y2).y ≤ (sky_blend y1).y ∧
          (sky_blend y2).z ≤ (sky_blend y1).z := by
  obtain ⟨n, rfl⟩ : ∃ n, fuel = n + 1 := ⟨fuel - 1, by omega⟩
  have hmain := ray_color_miss sqrt world n rnd r depth hdepth hmiss
  have hlen : 0 < r.direction.length sqrt := hsqrt.pos (vec3.length_squared_pos hdir)
  obtain ⟨hy0, hy1⟩ := normalized_y_mem hsqrt hdir
  refine ⟨hmain, ⟨hlen, normalized_eq sqrt _, normalized_length_squared hsqrt hdir, hy0, hy1⟩,
    ⟨_, hmain, ?_⟩, ?_, ?_, ?_⟩
  · simp only [sky_blend, vec3.add_x, vec3.add_y, vec3.add_z, vec3.smul_x, vec3.smul_y,
      vec3.smul_z]
    refine ⟨⟨?_, ?_⟩, ⟨?_, ?_⟩, ?_⟩ <;> linarith
  · intro hup
    rw [hmain, hup, normalized_of_length_squared_one hsqrt _ (by simp [vec3.length_squared])]
    simp only [sky_blend]
    congr 1
    ext <;> simp
  · intro hdown
    rw [hmain, hdown, normalized_of_length_squared_one hsqrt _ (by simp [vec3.length_squared])]
    simp only [sky_blend]
    congr 1
    ext <;> simp
  · intro y1 y2 h
    simp only [sky_blend, vec3.add_x, vec3.add_y, vec3.add_z, vec3.smul_x, vec3.smul_y,
      vec3.smul_z]
    refine ⟨by linarith, by linarith, by linarith⟩

/-- C7 in the empty scene: the ray pointed straight up gives `(0.5,0.7,1.0)`, and
the ray of direction `(0, 3, 4)`, whose normalised form is `(0, 3/5, 4/5)`, gives
the blend at `y = 3/5`, the colour `(0.6, 0.76, 1)`. -/
theorem ray_color_background_witness :
    ray_color Real.sqrt empty_world 1 demo_draws up_ray 1 = some ⟨1 / 2, 7 / 10, 1⟩ ∧
      ray_color Real.sqrt empty_world 1 demo_draws (slanted_ray : ray ℝ) 1
        = some ⟨3 / 5, 19 / 25, 1⟩ := by
  have h1 := ray_color_background Real.sqrt isSqrt_real empty_world 1 demo_draws up_ray 1
    (by decide) (by decide)
    (by
      intro h
      have := congrArg vec3.y h
      simp [up_ray, vec3.zero] at this)
    rfl
  have h2 := ray_color_background Real.sqrt isSqrt_real empty_world 1 demo_draws
    (slanted_ray : ray ℝ) 1 (by decide) (by decide)
    (by
      intro h
      have := congrArg vec3.y h
      simp [slanted_ray, vec3.zero] at this)
    rfl
  refine ⟨h1.2.2.2.1 rfl, ?_⟩
  rw [h2.1, slanted_normalized isSqrt_real]
  simp only [sky_blend]
  congr 1
  ext <;> simp <;> norm_num

end RayColor

/-! ## metal -/

section Metal

variable {K : Type} [LinearOrderedField K]

/-- C8: for a ray of non-zero direction, `metal::scatter` normalises the incoming
direction to unit length, sets `atten = albedo` and the scattered ray to
`(rec.point, R + fuzz*s)` with `R = D^ - 2(D^.N)N`, and returns true exactly when
`dot(R + fuzz*s, N) > 0`. -/
theorem metal_scatter_spec (sqrt : K → K) (hsqrt : IsSqrt sqrt) (m : metal K) (r_in : ray K)
    (rec : hit_record K) (s : vec3 K) (hdir : r_in.direction ≠ vec3.zero) :
    (r_in.direction.normalized sqrt).length_squared = 1 ∧
      (m.scatter sqrt r_in rec s).atten = m.albedo ∧
      (m.scatter sqrt r_in rec s).scattered =
        ⟨rec.point,
          (r_in.direction.normalized sqrt
              - vec3.smul (2 * dot (r_in.direction.normalized sqrt) rec.normal) rec.normal)
            + vec3.smul m.fuzz s⟩ ∧
      ((m.scatter sqrt r_in rec s).returned = true ↔
        dot ((r_in.direction.normalized sqrt
              - vec3.smul (2 * dot (r_in.direction.normalized sqrt) rec.normal) rec.normal)
            + vec3.smul m.fuzz s) rec.normal > 0) := by
  refine ⟨normalized_length_squared hsqrt hdir, rfl, rfl, ?_⟩
  simp [metal.scatter, reflect]

/-- The direction `(0,0,-1)` is its own normalised form. -/
theorem falling_normalized {sqrt : K → K} (h : IsSqrt sqrt) :
    (falling_ray : ray K).direction.normalized sqrt = ⟨0, 0, -1⟩ :=
  normalized_of_length_squared_one h _ (by simp [falling_ray, vec3.length_squared])

/-- The direction `(4,0,-3)` normalises to `(4/5, 0, -3/5)`. -/
theorem grazing_normalized {sqrt : K → K} (h : IsSqrt sqrt) :
    (grazing_ray : ray K).direction.normalized sqrt = ⟨4 / 5, 0, -(3 / 5)⟩ := by
  have h25 : (grazing_ray : ray K).direction.length_squared = 5 * 5 := by
    simp only [grazing_ray, vec3.length_squared]; norm_num
  unfold vec3.normalized vec3.length
  rw [h25, h.sqrt_mul_self (by norm_num)]
  ext <;> simp [grazing_ray, vec3.div_assign, vec3.mul_assign] <;> norm_num

/-- C8 for a ray falling straight onto a horizontal mirror: it is sent straight
back up. -/
theorem metal_scatter_spec_witness :
    ((metal.new1 ⟨1, 1, 1⟩ : metal ℝ).scatter Real.sqrt falling_ray floor_record
        ⟨0, 0, 0⟩).returned = true := by
  have h := metal_scatter_spec Real.sqrt isSqrt_real (metal.new1 ⟨1, 1, 1⟩ : metal ℝ)
    falling_ray floor_record ⟨0, 0, 0⟩
    (by
      intro h
      have := congrArg vec3.z h
      simp [falling_ray, vec3.zero] at this)
  rw [h.2.2.2, falling_normalized isSqrt_real]
  simp [floor_record, metal.new1, dot]

/-- C9, as the code has it: when `dot(scattered_direction, rec.normal) <= 0`
`metal::scatter` returns false (the ray is absorbed), and when the dot product is
positive it returns true. -/
theorem metal_scatter_absorbed (sqrt : K → K) (m : metal K) (r_in : ray K)
    (rec : hit_record K) (s : vec3 K) :
    (dot (m.scatter sqrt r_in rec s).scattered.direction rec.normal ≤ 0 →
        (m.scatter sqrt r_in rec s).returned = false) ∧
      (dot (m.scatter sqrt r_in rec s).scattered.direction rec.normal > 0 →
        (m.scatter sqrt r_in rec s).returned = true) := by
  constructor
  · intro h
    simp only [metal.scatter] at h ⊢
    exact decide_eq_false (not_lt.mpr h)
  · intro h
    simp only [metal.scatter] at h ⊢
    exact decide_eq_true h

/-- The scattered direction of the shallow ray on the fuzzy mirror. -/
theorem grazing_scattered {sqrt : K → K} (h : IsSqrt sqrt) :
    ((metal.new ⟨1, 1, 1⟩ 1 : metal K).scatter sqrt grazing_ray floor_record
        inward_sample).scattered.direction = ⟨4 / 5, 0, -(3 / 10)⟩ := by
  simp only [metal.scatter, grazing_normalized h, reflect]
  ext <;> simp [floor_record, metal.new, inward_sample, dot]
  norm_num

/-- C9 as amended, at a shallow incoming direction `(4,0,-3)` with fuzz `1`: the
perturbed reflection `(4/5, 0, -3/10)` points into the surface and the ray is
absorbed. -/
theorem metal_scatter_absorbed_witness :
    ((metal.new ⟨1, 1, 1⟩ 1 : metal ℝ).scatter Real.sqrt grazing_ray floor_record
        inward_sample).returned = false :=
  (metal_scatter_absorbed Real.sqrt (metal.new ⟨1, 1, 1⟩ 1 : metal ℝ) grazing_ray floor_record
    inward_sample).1
    (by rw [grazing_scattered isSqrt_real]; norm_num [floor_record, dot])

/-- C9 as stated fails: for a ray falling straight onto a horizontal mirror the
scattered direction is on the side of the normal (dot product `1 > 0`) and
`metal::scatter` returns true. -/
theorem metal_scatter_same_side_returns_true :
    dot ((metal.new1 ⟨1, 1, 1⟩ : metal ℝ).scatter Real.sqrt falling_ray floor_record
        ⟨0, 0, 0⟩).scattered.direction (floor_record : hit_record ℝ).normal > 0 ∧
      ((metal.new1 ⟨1, 1, 1⟩ : metal ℝ).scatter Real.sqrt falling_ray floor_record
        ⟨0, 0, 0⟩).returned ≠ false := by
  have hd : dot ((metal.new1 ⟨1, 1, 1⟩ : metal ℝ).scatter Real.sqrt falling_ray floor_record
        ⟨0, 0, 0⟩).scattered.direction (floor_record : hit_record ℝ).normal = 1 := by
    simp only [metal.scatter, falling_normalized isSqrt_real, reflect]
    simp [floor_record, metal.new1, dot]
    norm_num
  refine ⟨by rw [hd]; norm_num, ?_⟩
  simp only [metal.scatter] at hd ⊢
  rw [hd]
  simp

/-- C10 as stated fails: the argument `2` is stored as fuzz `1`, which is not below
`1`, and the argument `-1` is stored as fuzz `-1`, which is negative. -/
theorem metal_fuzz_outside_half_open :
    ¬ ((metal.new (⟨1, 1, 1⟩ : color ℚ) 2).fuzz < 1) ∧
      ¬ (0 ≤ (metal.new (⟨1, 1, 1⟩ : color ℚ) (-1)).fuzz) := by
  constructor <;> norm_num [metal.new]

/-- C10, as the code has it: for every argument `f` the stored fuzz is `f` when
`f < 1` and `1` otherwise, that is `min(f, 1)`, so it never exceeds `1`; for a
non-negative argument it lies in the closed interval `[0, 1]`. -/
theorem metal_fuzz_clamped_above (a : color K) (f : K) :
    (metal.new a f).albedo = a ∧ (metal.new a f).fuzz = min f 1 ∧
      (metal.new a f).fuzz ≤ 1 ∧
      (f < 1 → (metal.new a f).fuzz = f) ∧
      (1 ≤ f → (metal.new a f).fuzz = 1) ∧
      (0 ≤ f → 0 ≤ (metal.new a f).fuzz ∧ (metal.new a f).fuzz ≤ 1) := by
  have h : (metal.new a f).fuzz = min f 1 := by
    simp only [metal.new]
    split_ifs with h1
    · exact (min_eq_left h1.le).symm
    · exact (min_eq_right (not_lt.mp h1)).symm
  refine ⟨rfl, h, ?_, ?_, ?_, ?_⟩
  · rw [h]; exact min_le_right _ _
  · intro h1; rw [h]; exact min_eq_left h1.le
  · intro h1; rw [h]; exact min_eq_right h1
  · intro hf; rw [h]; exact ⟨le_min hf zero_le_one, min_le_right _ _⟩

/-- C10 as amended, at the arguments `2`, stored as `1`, and `-3`, stored
unchanged. -/
theorem metal_fuzz_clamped_above_witness :
    (metal.new (⟨1, 1, 1⟩ : color ℚ) 2).fuzz = 1 ∧
      (0 ≤ (metal.new (⟨1, 1, 1⟩ : color ℚ) 2).fuzz ∧
        (metal.new (⟨1, 1, 1⟩ : color ℚ) 2).fuzz ≤ 1) ∧
      (metal.new (⟨1, 1, 1⟩ : color ℚ) (-3)).fuzz = -3 :=
  ⟨(metal_fuzz_clamped_above (⟨1, 1, 1⟩ : color ℚ) 2).2.2.2.2.1 (by norm_num),
    (metal_fuzz_clamped_above (⟨1, 1, 1⟩ : color ℚ) 2).2.2.2.2.2 (by norm_num),
    (metal_fuzz_clamped_above (⟨1, 1, 1⟩ : color ℚ) (-3)).2.2.2.1 (by norm_num)⟩

end Metal

/-! ## dielectric -/

section Dielectric

variable {K : Type} [LinearOrderedField K]

/-- C11 as stated fails: at `rho = -1/2` and `cosine = 0` the value is `1` while
`R0 = 9`, so the value is below `R0`. -/
theorem reflectance_below_r0 :
    (-1 / 2 : ℚ) ≠ -1 ∧ (0 : ℚ) ≤ 0 ∧ (0 : ℚ) ≤ 1 ∧
      ¬ (schlick_r0 (-1 / 2 : ℚ) ≤ dielectric.reflectance 0 (-1 / 2 : ℚ) ∧
          dielectric.reflectance 0 (-1 / 2 : ℚ) ≤ 1) := by
  norm_num [schlick_r0, dielectric.reflectance]

/-- For a non-negative ratio `R0` lies between `0` and `1`. -/
theorem schlick_r0_le_one {rho : K} (hrho : 0 ≤ rho) : 0 ≤ schlick_r0 rho ∧ schlick_r0 rho ≤ 1 := by
  have hpos : 0 < 1 + rho := by linarith
  unfold schlick_r0
  refine ⟨sq_nonneg _, ?_⟩
  rw [div_pow, div_le_one (pow_pos hpos 2)]
  nlinarith

/-- C11, as the code has it: for every ratio `rho != -1`,
`reflectance(1, rho)` is exactly `R0 = ((1 - rho)/(1 + rho))^2`; for every cosine
the value is `R0 + (1 - R0)*(1 - cosine)^5`; and for every ratio `rho >= 0` and
every cosine in `[0,1]` the value lies in `[R0, 1]`. -/
theorem reflectance_spec (rho cosine : K) (hrho : rho ≠ -1) :
    dielectric.reflectance 1 rho = schlick_r0 rho ∧
      dielectric.reflectance cosine rho
        = schlick_r0 rho + (1 - schlick_r0 rho) * (1 - cosine) ^ 5 ∧
      (0 ≤ rho → 0 ≤ cosine → cosine ≤ 1 →
        schlick_r0 rho ≤ dielectric.reflectance cosine rho ∧
          dielectric.reflectance cosine rho ≤ 1) := by
  have hform : dielectric.reflectance cosine rho
      = schlick_r0 rho + (1 - schlick_r0 rho) * (1 - cosine) ^ 5 := by
    simp only [dielectric.reflectance, schlick_r0]; ring
  refine ⟨?_, hform, ?_⟩
  · simp only [dielectric.reflectance, schlick_r0]; ring
  · intro h0 hc0 hc1
    obtain ⟨hr0, hr1⟩ := schlick_r0_le_one h0
    have hx0 : 0 ≤ (1 - cosine) ^ 5 := pow_nonneg (by linarith) 5
    have hx1 : (1 - cosine) ^ 5 ≤ 1 := pow_le_one₀ (by linarith) (by linarith)
    rw [hform]
    constructor
    · nlinarith [mul_nonneg (sub_nonneg.mpr hr1) hx0]
    · nlinarith [mul_nonneg (sub_nonneg.mpr hr1) (sub_nonneg.mpr hx1)]

/-- C11 as amended, at the ratio `2/3` of glass seen from outside and cosine `1/2`. -/
theorem reflectance_spec_witness :
    dielectric.reflectance 1 (2 / 3 : ℚ) = schlick_r0 (2 / 3) ∧
      schlick_r0 (2 / 3 : ℚ) ≤ dielectric.reflectance (1 / 2) (2 / 3) ∧
      dielectric.reflectance (1 / 2) (2 / 3 : ℚ) ≤ 1 :=
  have h := reflectance_spec (2 / 3 : ℚ) (1 / 2) (by norm_num)
  ⟨(reflectance_spec (2 / 3 : ℚ) 1 (by norm_num)).1,
    h.2.2 (by norm_num) (by norm_num) (by norm_num)⟩

/-- The Cauchy-Schwarz inequality for `dot`. -/
theorem dot_mul_self_le (a b : vec3 K) :
    dot a b * dot a b ≤ a.length_squared * b.length_squared := by
  simp only [dot, vec3.length_squared]
  nlinarith [mul_self_nonneg (a.x * b.y - a.y * b.x), mul_self_nonneg (a.y * b.z - a.z * b.y),
    mul_self_nonneg (a.z * b.x - a.x * b.z)]

/-- The squared length of an opposite vector. -/
theorem vec3.length_squared_neg (v : vec3 K) : (-v).length_squared = v.length_squared := by
  simp only [vec3.length_squared, vec3.neg_x, vec3.neg_y, vec3.neg_z]; ring

/-- C12: for a ray of non-zero direction, a record with unit normal and a draw `x`
in `[0,1)`, `dielectric::scatter` returns true with attenuation `(1,1,1)` and
scattered origin `rec.point`; the ratio is `1/n` when `rec.is_front_facing` and `n`
otherwise; with `cos = min(dot(-D^, N), 1)` and `sin = sqrt(1 - cos^2)` (whose
argument is then non-negative) the scattered direction is `reflect(D^, N)` if
`ratio*sin > 1` or `x < reflectance(cos, ratio)`, and `refract(D^, N, ratio)`
otherwise. -/
theorem dielectric_scatter_spec (sqrt : K → K) (hsqrt : IsSqrt sqrt) (m : dielectric K)
    (r_in : ray K) (rec : hit_record K) (x : K) (hdir : r_in.direction ≠ vec3.zero)
    (hnormal : rec.normal.length_squared = 1) (hx : 0 ≤ x ∧ x < 1) :
    (m.scatter sqrt r_in rec x).returned = true ∧
      (m.scatter sqrt r_in rec x).atten = ⟨1, 1, 1⟩ ∧
      (m.scatter sqrt r_in rec x).scattered.origin = rec.point ∧
      scatter_ratio m rec = (if rec.is_front_facing = true then 1 / m.index else m.index) ∧
      0 ≤ 1 - scatter_cos sqrt r_in rec * scatter_cos sqrt r_in rec ∧
      (m.scatter sqrt r_in rec x).scattered.direction =
        (if scatter_ratio m rec * scatter_sin sqrt r_in rec > 1 ∨
            x < dielectric.reflectance (scatter_cos sqrt r_in rec) (scatter_ratio m rec)
          then reflect (r_in.direction.normalized sqrt) rec.normal
          else refract sqrt (r_in.direction.normalized sqrt) rec.normal (scatter_ratio m rec)) := by
  refine ⟨rfl, rfl, rfl, rfl, ?_, ?_⟩
  · have h1 := normalized_length_squared hsqrt hdir
    have h2 := dot_mul_self_le (-(r_in.direction.normalized sqrt)) rec.normal
    rw [vec3.length_squared_neg, h1, hnormal, mul_one] at h2
    unfold scatter_cos
    rcases le_total (dot (-(r_in.direction.normalized sqrt)) rec.normal) 1 with h | h
    · rw [min_eq_left h]; linarith
    · rw [min_eq_right h]; norm_num
  · simp only [dielectric.scatter, scatter_ratio, scatter_sin, scatter_cos, decide_eq_true_eq,
      gt_iff_lt]

/-- C12 for a ray falling straight onto a horizontal glass surface. -/
theorem dielectric_scatter_spec_witness :
    ((⟨3 / 2⟩ : dielectric ℝ).scatter Real.sqrt falling_ray floor_record (1 / 2)).returned = true ∧
      0 ≤ 1 - scatter_cos Real.sqrt (falling_ray : ray ℝ) floor_record
        * scatter_cos Real.sqrt (falling_ray : ray ℝ) floor_record :=
  have h := dielectric_scatter_spec Real.sqrt isSqrt_real (⟨3 / 2⟩ : dielectric ℝ) falling_ray
    floor_record (1 / 2)
    (by
      intro h
      have := congrArg vec3.z h
      simp [falling_ray, vec3.zero] at this)
    (by simp [floor_record, vec3.length_squared])
    (by norm_num)
  ⟨h.1, h.2.2.2.2.1⟩

end Dielectric

/-! ## lambertian -/

section Lambertian

variable {K : Type} [LinearOrderedField K]

/-- Under `IsSqrt`, the square root of zero is zero. -/
theorem IsSqrt.sqrt_zero {sqrt : K → K} (h : IsSqrt sqrt) : sqrt 0 = 0 := by
  have := h.sqrt_mul_self (le_refl (0 : K))
  rwa [mul_zero] at this

/-- When both draws are `0`, `random_unit_vector` returns `(0, 0, -1)`. -/
theorem random_unit_vector_zero_zero {sqrt : K → K} (h : IsSqrt sqrt) (cos sin : K → K) :
    random_unit_vector sqrt cos sin 0 0 = ⟨0, 0, -1⟩ := by
  simp only [random_unit_vector, random_double_range]
  have h0 : (1 : K) - (-1 + (1 - -1) * 0) * (-1 + (1 - -1) * 0) = 0 := by norm_num
  rw [h0, h.sqrt_zero]
  ext <;> simp

/-- C13 as stated fails: on a surface of unit normal `(0,0,1)`, when both draws of
`random_unit_vector` are `0` (azimuth `0`, `z = -1`) the sampled vector is
`(0,0,-1)` and the scattered ray of `lambertian::scatter` has the zero vector as
its direction. -/
theorem lambertian_scatter_zero_direction :
    (floor_record : hit_record ℝ).normal.length_squared = 1 ∧
      ((⟨⟨1 / 2, 1 / 2, 1 / 2⟩⟩ : lambertian ℝ).scatter falling_ray floor_record
        (random_unit_vector Real.sqrt Real.cos Real.sin 0 0)).scattered.direction = vec3.zero := by
  rw [random_unit_vector_zero_zero isSqrt_real]
  constructor
  · simp [floor_record, vec3.length_squared]
  · simp only [lambertian.scatter, floor_record, vec3.zero]
    ext <;> simp

/-- C13, as the code has it: `lambertian::scatter` has no guard; it returns true
with `atten = albedo` and the scattered ray `(rec.point, rec.normal + u)`, whose
direction is non-zero exactly when the sampled vector `u` is not `-rec.normal`. -/
theorem lambertian_scatter_direction (m : lambertian K) (r_in : ray K) (rec : hit_record K)
    (u : vec3 K) :
    (m.scatter r_in rec u).returned = true ∧ (m.scatter r_in rec u).atten = m.albedo ∧
      (m.scatter r_in rec u).scattered = ⟨rec.point, rec.normal + u⟩ ∧
      ((m.scatter r_in rec u).scattered.direction ≠ vec3.zero ↔ u ≠ -rec.normal) := by
  refine ⟨rfl, rfl, rfl, ?_⟩
  simp only [lambertian.scatter, ne_eq, not_iff_not, vec3.zero]
  constructor
  · intro h
    have hx := congrArg vec3.x h
    have hy := congrArg vec3.y h
    have hz := congrArg vec3.z h
    simp only [vec3.add_x, vec3.add_y, vec3.add_z] at hx hy hz
    ext
    · rw [vec3.neg_x]; linarith
    · rw [vec3.neg_y]; linarith
    · rw [vec3.neg_z]; linarith
  · intro h
    rw [h]
    ext <;> simp

end Lambertian

/-! ## reflect and refract -/

section Reflect

variable {K : Type} [LinearOrderedField K]

/-- C14: for every vector `v` and every unit normal `n`,
`reflect(v, n) = v - 2*dot(v, n)*n` has the squared length and the length of `v`,
and `dot(reflect(v, n), n) = -dot(v, n)`. -/
theorem reflect_preserves_length (sqrt : K → K) (v n : vec3 K)
    (hn : n.length_squared = 1) :
    reflect v n = v - vec3.smul (2 * dot v n) n ∧
      (reflect v n).length_squared = v.length_squared ∧
      (reflect v n).length sqrt = v.length sqrt ∧
      dot (reflect v n) n = -dot v n := by
  have h2 : (reflect v n).length_squared = v.length_squared := by
    simp only [reflect, vec3.length_squared, dot, vec3.sub_x, vec3.sub_y, vec3.sub_z,
      vec3.smul_x, vec3.smul_y, vec3.smul_z] at hn ⊢
    linear_combination
      (4 * (v.x * n.x + v.y * n.y + v.z * n.z) * (v.x * n.x + v.y * n.y + v.z * n.z)) * hn
  refine ⟨rfl, h2, ?_, ?_⟩
  · unfold vec3.length; rw [h2]
  · simp only [reflect, vec3.length_squared, dot, vec3.sub_x, vec3.sub_y, vec3.sub_z,
      vec3.smul_x, vec3.smul_y, vec3.smul_z] at hn ⊢
    linear_combination (-2 * (v.x * n.x + v.y * n.y + v.z * n.z)) * hn

/-- C14 for `v = (1, 2, 3)` and the normal `(0, 0, 1)`: the reflection is
`(1, 2, -3)`. -/
theorem reflect_preserves_length_witness :
    reflect (⟨1, 2, 3⟩ : vec3 ℝ) ⟨0, 0, 1⟩ = ⟨1, 2, 3⟩ - vec3.smul (2 * dot ⟨1, 2, 3⟩ ⟨0, 0, 1⟩) ⟨0, 0, 1⟩ ∧
      (reflect (⟨1, 2, 3⟩ : vec3 ℝ) ⟨0, 0, 1⟩).length_squared = (⟨1, 2, 3⟩ : vec3 ℝ).length_squared ∧
      (reflect (⟨1, 2, 3⟩ : vec3 ℝ) ⟨0, 0, 1⟩).length Real.sqrt = (⟨1, 2, 3⟩ : vec3 ℝ).length Real.sqrt ∧
      dot (reflect (⟨1, 2, 3⟩ : vec3 ℝ) ⟨0, 0, 1⟩) ⟨0, 0, 1⟩ = -dot (⟨1, 2, 3⟩ : vec3 ℝ) ⟨0, 0, 1⟩ :=
  reflect_preserves_length Real.sqrt ⟨1, 2, 3⟩ ⟨0, 0, 1⟩ (by simp [vec3.length_squared])

/-- C18: for a unit vector `uv`, a unit normal `n` and a ratio `eoe >= 0` with
`eoe^2 * (1 - dot(uv, n)^2) <= 1`, `refract(uv, n, eoe)` has unit length, its
component perpendicular to `n` is `eoe` times that of `uv`, and its component
along `n` is non-positive. -/
theorem refract_spec (sqrt : K → K) (hsqrt : IsSqrt sqrt) (uv n : vec3 K) (eoe : K)
    (huv : uv.length_squared = 1) (hn : n.length_squared = 1) (he : 0 ≤ eoe)
    (hcan : eoe ^ 2 * (1 - dot uv n ^ 2) ≤ 1) :
    (refract sqrt uv n eoe).length_squared = 1 ∧
      (refract sqrt uv n eoe).length sqrt = 1 ∧
      perp (refract sqrt uv n eoe) n = vec3.smul eoe (perp uv n) ∧
      dot (refract sqrt uv n eoe) n ≤ 0 := by
  have hq : (vec3.smul eoe (uv + vec3.smul (dot (-uv) n) n)).length_squared
      = eoe ^ 2 * (1 - dot uv n ^ 2) := by
    simp only [vec3.length_squared, dot, vec3.smul_x, vec3.smul_y, vec3.smul_z, vec3.add_x,
      vec3.add_y, vec3.add_z, vec3.neg_x, vec3.neg_y, vec3.neg_z] at huv hn ⊢
    linear_combination (eoe ^ 2) * huv
      + (eoe ^ 2 * (uv.x * n.x + uv.y * n.y + uv.z * n.z) ^ 2) * hn
  have habs : |1 - (vec3.smul eoe (uv + vec3.smul (dot (-uv) n) n)).length_squared|
      = 1 - eoe ^ 2 * (1 - dot uv n ^ 2) := by
    rw [hq, abs_of_nonneg (by linarith)]
  obtain ⟨hs0, hss⟩ := hsqrt (1 - eoe ^ 2 * (1 - dot uv n ^ 2)) (by linarith)
  have hlen : (refract sqrt uv n eoe).length_squared = 1 := by
    simp only [refract, habs]
    generalize sqrt (1 - eoe ^ 2 * (1 - dot uv n ^ 2)) = s at hs0 hss
    simp only [vec3.length_squared, dot, vec3.smul_x, vec3.smul_y, vec3.smul_z, vec3.add_x,
      vec3.add_y, vec3.add_z, vec3.neg_x, vec3.neg_y, vec3.neg_z] at huv hn hss ⊢
    linear_combination hss + (eoe ^ 2) * huv
      + (eoe ^ 2 * (uv.x * n.x + uv.y * n.y + uv.z * n.z) ^ 2
          + 2 * s * eoe * (uv.x * n.x + uv.y * n.y + uv.z * n.z) + s * s) * hn
  have hdot : dot (refract sqrt uv n eoe) n = -sqrt (1 - eoe ^ 2 * (1 - dot uv n ^ 2)) := by
    simp only [refract, habs]
    generalize sqrt (1 - eoe ^ 2 * (1 - dot uv n ^ 2)) = s
    simp only [vec3.length_squared, dot, vec3.smul_x, vec3.smul_y, vec3.smul_z, vec3.add_x,
      vec3.add_y, vec3.add_z, vec3.neg_x, vec3.neg_y, vec3.neg_z] at hn ⊢
    linear_combination (-(eoe * (uv.x * n.x + uv.y * n.y + uv.z * n.z)) - s) * hn
  refine ⟨hlen, ?_, ?_, ?_⟩
  · unfold vec3.length; rw [hlen, hsqrt.sqrt_one]
  · unfold perp
    rw [hdot]
    simp only [refract, habs]
    generalize sqrt (1 - eoe ^ 2 * (1 - dot uv n ^ 2)) = s
    ext <;>
      simp only [dot, vec3.smul_x, vec3.smul_y, vec3.smul_z, vec3.add_x, vec3.add_y,
        vec3.add_z, vec3.sub_x, vec3.sub_y, vec3.sub_z, vec3.neg_x, vec3.neg_y, vec3.neg_z] <;>
      ring
  · rw [hdot]; linarith

/-- C18 for the unit direction `(3/5, 0, -4/5)` entering a horizontal surface with
ratio `1`. -/
theorem refract_spec_witness :
    (refract Real.sqrt (⟨3 / 5, 0, -(4 / 5)⟩ : vec3 ℝ) ⟨0, 0, 1⟩ 1).length_squared = 1 ∧
      (refract Real.sqrt (⟨3 / 5, 0, -(4 / 5)⟩ : vec3 ℝ) ⟨0, 0, 1⟩ 1).length Real.sqrt = 1 ∧
      perp (refract Real.sqrt (⟨3 / 5, 0, -(4 / 5)⟩ : vec3 ℝ) ⟨0, 0, 1⟩ 1) ⟨0, 0, 1⟩
        = vec3.smul 1 (perp ⟨3 / 5, 0, -(4 / 5)⟩ ⟨0, 0, 1⟩) ∧
      dot (refract Real.sqrt (⟨3 / 5, 0, -(4 / 5)⟩ : vec3 ℝ) ⟨0, 0, 1⟩ 1) ⟨0, 0, 1⟩ ≤ 0 :=
  refract_spec Real.sqrt isSqrt_real ⟨3 / 5, 0, -(4 / 5)⟩ ⟨0, 0, 1⟩ 1
    (by norm_num [vec3.length_squared]) (by norm_num [vec3.length_squared]) (by norm_num)
    (by norm_num [dot])

end Reflect

/-! ## write_color -/

section WriteColor

variable {K : Type} [LinearOrderedField K]

/-- The function `clamp` stays within its bounds. -/
theorem clamp_mem (x lo hi : K) (h : lo ≤ hi) : lo ≤ clamp x lo hi ∧ clamp x lo hi ≤ hi := by
  unfold clamp
  split_ifs with h1 h2
  · exact ⟨le_refl _, h⟩
  · exact ⟨h, le_refl _⟩
  · exact ⟨not_lt.mp h1, not_lt.mp h2⟩

/-- Under `IsSqrt`, the square root of a number that is at least one is at least one. -/
theorem IsSqrt.one_le {sqrt : K → K} (h : IsSqrt sqrt) {x : K} (hx : 1 ≤ x) : 1 ≤ sqrt x := by
  obtain ⟨h0, h1⟩ := h x (by linarith)
  by_contra hlt
  push_neg at hlt
  nlinarith

end WriteColor

/-! ## write_color: the emitted integers -/

section WriteColorInt

variable {K : Type} [LinearOrderedField K] [FloorRing K]

/-- The integer `write_color` emits for a channel of accumulated radiance `c`. -/
theorem write_color_eq (sqrt : K → K) (col : color K) (samples : Int) :
    write_color sqrt col samples =
      (static_cast_int (256 * clamp (sqrt (col.x * (1 / (samples : K)))) 0 (999 / 1000)),
       static_cast_int (256 * clamp (sqrt (col.y * (1 / (samples : K)))) 0 (999 / 1000)),
       static_cast_int (256 * clamp (sqrt (col.z * (1 / (samples : K)))) 0 (999 / 1000))) := rfl

/-- Every channel lands in `[0, 255]`. -/
theorem channel_range (y : K) :
    0 ≤ static_cast_int (256 * clamp y 0 (999 / 1000)) ∧
      static_cast_int (256 * clamp y 0 (999 / 1000)) ≤ 255 := by
  obtain ⟨h0, h1⟩ := clamp_mem y 0 (999 / 1000) (by norm_num)
  have hn : (0 : K) ≤ 256 * clamp y 0 (999 / 1000) := by linarith
  unfold static_cast_int
  rw [if_pos hn]
  constructor
  · exact Int.floor_nonneg.mpr hn
  · have : Int.floor (256 * clamp y 0 (999 / 1000)) < 256 := by
      rw [Int.floor_lt]; push_cast; linarith
    omega

/-- A channel whose square root is at least one is emitted as `255`. -/
theorem channel_saturated (y : K) (hy : 1 ≤ y) :
    static_cast_int (256 * clamp y 0 (999 / 1000)) = 255 := by
  have hc : clamp y 0 (999 / 1000) = 999 / 1000 := by
    unfold clamp
    rw [if_neg (by linarith), if_pos (by linarith)]
  rw [hc]
  unfold static_cast_int
  rw [if_pos (by norm_num), Int.floor_eq_iff]
  constructor <;> norm_num

/-- C15: for `samples >= 1`, a channel whose accumulated radiance `c` has
`c / samples >= 1` is emitted as `255`, and for every `c >= 0` the emitted channel
is an integer in `[0, 255]`. -/
theorem write_color_channel (sqrt : K → K) (hsqrt : IsSqrt sqrt) (col : color K)
    (samples : Int) (hs : 1 ≤ samples) :
    (1 ≤ col.x / (samples : K) → (write_color sqrt col samples).1 = 255) ∧
      (1 ≤ col.y / (samples : K) → (write_color sqrt col samples).2.1 = 255) ∧
      (1 ≤ col.z / (samples : K) → (write_color sqrt col samples).2.2 = 255) ∧
      (0 ≤ col.x → 0 ≤ (write_color sqrt col samples).1 ∧ (write_color sqrt col samples).1 ≤ 255) ∧
      (0 ≤ col.y →
        0 ≤ (write_color sqrt col samples).2.1 ∧ (write_color sqrt col samples).2.1 ≤ 255) ∧
      (0 ≤ col.z →
        0 ≤ (write_color sqrt col samples).2.2 ∧ (write_color sqrt col samples).2.2 ≤ 255) := by
  rw [write_color_eq]
  have key : ∀ c : K, 1 ≤ c / (samples : K) → 1 ≤ sqrt (c * (1 / (samples : K))) := by
    intro c hc
    apply hsqrt.one_le
    rwa [mul_one_div]
  exact ⟨fun h => channel_saturated _ (key _ h), fun h => channel_saturated _ (key _ h),
    fun h => channel_saturated _ (key _ h), fun _ => channel_range _, fun _ => channel_range _,
    fun _ => channel_range _⟩

/-- C15 at `samples = 100` and accumulated radiance `100` in every channel: the
average is exactly `1` and the three emitted values are `255`. -/
theorem write_color_channel_witness :
    write_color Real.sqrt (⟨100, 100, 100⟩ : color ℝ) 100 = (255, 255, 255) := by
  have h := write_color_channel Real.sqrt isSqrt_real (⟨100, 100, 100⟩ : color ℝ) 100
    (by norm_num)
  have h1 := h.1 (by norm_num)
  have h2 := h.2.1 (by norm_num)
  have h3 := h.2.2.1 (by norm_num)
  exact Prod.ext h1 (Prod.ext h2 h3)

end WriteColorInt

/-! ## camera -/

section Camera

variable {K : Type} [LinearOrderedField K]

/-- A cross product is perpendicular to its second factor. -/
theorem dot_cross_right (a b : vec3 K) : dot (cross a b) b = 0 := by
  simp only [dot, cross]; ring

/-- A cross product is perpendicular to its first factor. -/
theorem dot_cross_left (a b : vec3 K) : dot (cross a b) a = 0 := by
  simp only [dot, cross]; ring

/-- The function `dot` is symmetric. -/
theorem dot_comm (a b : vec3 K) : dot a b = dot b a := by
  simp only [dot]; ring

/-- Lagrange's identity for `cross`. -/
theorem cross_length_squared (a b : vec3 K) :
    (cross a b).length_squared = a.length_squared * b.length_squared - dot a b * dot a b := by
  simp only [dot, cross, vec3.length_squared]; ring

/-- Scaling the left factor of `dot`. -/
theorem dot_smul_left (t : K) (a b : vec3 K) : dot (vec3.smul t a) b = t * dot a b := by
  simp only [dot, vec3.smul_x, vec3.smul_y, vec3.smul_z]; ring

/-- Scaling the right factor of `cross`. -/
theorem cross_smul_right (t : K) (a b : vec3 K) :
    cross a (vec3.smul t b) = vec3.smul t (cross a b) := by
  simp only [cross, vec3.smul]
  ext <;> simp only [] <;> ring

/-- A non-zero multiple of a non-zero vector is not the zero vector. -/
theorem smul_ne_zero_vec {t : K} {v : vec3 K} (ht : t ≠ 0) (hv : v ≠ vec3.zero) :
    vec3.smul t v ≠ vec3.zero := by
  intro h
  apply hv
  have hx := congrArg vec3.x h
  have hy := congrArg vec3.y h
  have hz := congrArg vec3.z h
  simp only [vec3.smul_x, vec3.smul_y, vec3.smul_z, vec3.zero, mul_eq_zero, ht, or_false]
    at hx hy hz
  exact vec3.ext hx hy hz

/-- Two distinct points differ by a non-zero vector. -/
theorem sub_ne_zero_vec {a b : vec3 K} (h : a ≠ b) : a - b ≠ vec3.zero := by
  intro h0
  apply h
  have hx := congrArg vec3.x h0
  have hy := congrArg vec3.y h0
  have hz := congrArg vec3.z h0
  simp only [vec3.sub_x, vec3.sub_y, vec3.sub_z, vec3.zero, sub_eq_zero] at hx hy hz
  exact vec3.ext hx hy hz

/-- C16: for a camera constructed with `lookfrom != lookat` and `vup` not parallel
to `lookfrom - lookat`, the stored basis is orthonormal: `u`, `v`, `w` have unit
length and are pairwise perpendicular, with `w = normalize(lookfrom - lookat)`,
`u = normalize(cross(vup, w))`, `v = cross(w, u)`; and
`lens_radius = aperture / 2`. -/
theorem camera_basis_orthonormal (sqrt tan : K → K) (hsqrt : IsSqrt sqrt)
    (lookfrom lookat : point3 K) (vup : vec3 K) (vfov aspect_ratio aperture focus_dist : K)
    (hlook : lookfrom ≠ lookat) (hup : cross vup (lookfrom - lookat) ≠ vec3.zero) :
    ((camera.new sqrt tan lookfrom lookat vup vfov aspect_ratio aperture focus_dist).u.length sqrt = 1 ∧
      (camera.new sqrt tan lookfrom lookat vup vfov aspect_ratio aperture focus_dist).v.length sqrt = 1 ∧
      (camera.new sqrt tan lookfrom lookat vup vfov aspect_ratio aperture focus_dist).w.length sqrt = 1) ∧
    (dot (camera.new sqrt tan lookfrom lookat vup vfov aspect_ratio aperture focus_dist).u
        (camera.new sqrt tan lookfrom lookat vup vfov aspect_ratio aperture focus_dist).v = 0 ∧
      dot (camera.new sqrt tan lookfrom lookat vup vfov aspect_ratio aperture focus_dist).v
        (camera.new sqrt tan lookfrom lookat vup vfov aspect_ratio aperture focus_dist).w = 0 ∧
      dot (camera.new sqrt tan lookfrom lookat vup vfov aspect_ratio aperture focus_dist).u
        (camera.new sqrt tan lookfrom lookat vup vfov aspect_ratio aperture focus_dist).w = 0) ∧
    ((camera.new sqrt tan lookfrom lookat vup vfov aspect_ratio aperture focus_dist).w
        = (lookfrom - lookat).normalized sqrt ∧
      (camera.new sqrt tan lookfrom lookat vup vfov aspect_ratio aperture focus_dist).u
        = (cross vup ((lookfrom - lookat).normalized sqrt)).normalized sqrt ∧
      (camera.new sqrt tan lookfrom lookat vup vfov aspect_ratio aperture focus_dist).v
        = cross ((lookfrom - lookat).normalized sqrt)
            ((cross vup ((lookfrom - lookat).normalized sqrt)).normalized sqrt)) ∧
    (camera.new sqrt tan lookfrom lookat vup vfov aspect_ratio aperture focus_dist).lens_radius
      = aperture / 2 := by
  simp only [camera.new]
  have hd := sub_ne_zero_vec hlook
  have hlen : 0 < (lookfrom - lookat).length sqrt := hsqrt.pos (vec3.length_squared_pos hd)
  have hw : ((lookfrom - lookat).normalized sqrt).length_squared = 1 :=
    normalized_length_squared hsqrt hd
  have hc : cross vup ((lookfrom - lookat).normalized sqrt) ≠ vec3.zero := by
    rw [normalized_eq, cross_smul_right]
    exact smul_ne_zero_vec (one_div_pos.mpr hlen).ne' hup
  have hu : ((cross vup ((lookfrom - lookat).normalized sqrt)).normalized sqrt).length_squared = 1 :=
    normalized_length_squared hsqrt hc
  have huw : dot ((cross vup ((lookfrom - lookat).normalized sqrt)).normalized sqrt)
      ((lookfrom - lookat).normalized sqrt) = 0 := by
    rw [normalized_eq sqrt (cross _ _), dot_smul_left, dot_cross_right, mul_zero]
  have hv : (cross ((lookfrom - lookat).normalized sqrt)
      ((cross vup ((lookfrom - lookat).normalized sqrt)).normalized sqrt)).length_squared = 1 := by
    rw [cross_length_squared, hw, hu, dot_comm, huw]; ring
  refine ⟨⟨?_, ?_, ?_⟩, ⟨?_, ?_, huw⟩, by simp, by simp⟩
  · unfold vec3.length; rw [hu, hsqrt.sqrt_one]
  · unfold vec3.length; rw [hv, hsqrt.sqrt_one]
  · unfold vec3.length; rw [hw, hsqrt.sqrt_one]
  · rw [dot_comm, dot_cross_right]
  · exact dot_cross_left _ _

/-- C16 at the camera at `(0,0,1)` looking at the origin. -/
theorem camera_basis_orthonormal_witness :
    ((demo_camera Real.sqrt Real.tan).u.length Real.sqrt = 1 ∧
      (demo_camera Real.sqrt Real.tan).v.length Real.sqrt = 1 ∧
      (demo_camera Real.sqrt Real.tan).w.length Real.sqrt = 1) ∧
    (dot (demo_camera Real.sqrt Real.tan).u (demo_camera Real.sqrt Real.tan).v = 0 ∧
      dot (demo_camera Real.sqrt Real.tan).v (demo_camera Real.sqrt Real.tan).w = 0 ∧
      dot (demo_camera Real.sqrt Real.tan).u (demo_camera Real.sqrt Real.tan).w = 0) :=
  have h := camera_basis_orthonormal Real.sqrt Real.tan isSqrt_real ⟨0, 0, 1⟩ ⟨0, 0, 0⟩ ⟨0, 1, 0⟩
    90 2 0 1
    (by
      intro h
      have := congrArg vec3.z h
      simp at this)
    (by
      intro h
      have := congrArg vec3.x h
      simp [cross, vec3.zero] at this)
  ⟨h.1, h.2.1⟩


end Camera

/-! ## sphere::hit: the recorded point -/

section SpherePoint

variable {K : Type} [LinearOrderedField K]

/-- C19: for a sphere of non-zero radius and a ray of non-zero direction for which
`sphere::hit` returns true, the recorded point is `ray.origin + rec.t *
ray.direction`, it lies on the surface (`|rec.point - center|^2 = radius^2`),
`rec.t` is a root of `a*t^2 + 2*half_b*t + c = 0`, and `rec.material_ptr` is the
material of the sphere. -/
theorem sphere_hit_point_on_surface (sqrt : K → K) (hsqrt : IsSqrt sqrt) (s : sphere K)
    (r : ray K) (t_min : K) (t_max : WithTop K) (rec rec1 : hit_record K)
    (hrad : s.radius_ ≠ 0) (hdir : r.direction ≠ vec3.zero)
    (hhit : s.hit sqrt r t_min t_max rec = some rec1) :
    rec1.point = r.origin + vec3.smul rec1.t r.direction ∧
      (rec1.point - s.center_).length_squared = s.radius_ * s.radius_ ∧
      hit_a r * rec1.t ^ 2 + 2 * hit_half_b s r * rec1.t + hit_c s r = 0 ∧
      rec1.material_ptr = s.material_ptr := by
  have ha : 0 < hit_a r := vec3.length_squared_pos hdir
  rw [sphere_hit_eq] at hhit
  by_cases hdisc : hit_discriminant s r > 0
  swap
  · rw [if_neg hdisc] at hhit; exact absurd hhit (by simp)
  rw [if_pos hdisc] at hhit
  obtain ⟨-, hroot⟩ := hsqrt _ hdisc.le
  have key : ∀ t e : K, hit_a r * t + hit_half_b s r = e → e * e = hit_discriminant s r →
      rec1 = hit_record_at s r t →
      rec1.point = r.origin + vec3.smul rec1.t r.direction ∧
      (rec1.point - s.center_).length_squared = s.radius_ * s.radius_ ∧
      hit_a r * rec1.t ^ 2 + 2 * hit_half_b s r * rec1.t + hit_c s r = 0 ∧
      rec1.material_ptr = s.material_ptr := by
    intro t e he hee hrec
    subst hrec
    refine ⟨rfl, point_at_on_sphere s r t e ha.ne' he hee, ?_, rfl⟩
    simp only [hit_record_at]
    apply mul_left_cancel₀ ha.ne'
    unfold hit_discriminant at hee
    linear_combination (hit_a r * t + hit_half_b s r + e) * he + hee
  split_ifs at hhit with h1 h2
  · refine key (hit_root_minus sqrt s r) (-sqrt (hit_discriminant s r)) ?_ ?_
      (Option.some.inj hhit).symm
    · unfold hit_root_minus; field_simp; ring
    · rw [neg_mul_neg]; exact hroot
  · refine key (hit_root_plus sqrt s r) (sqrt (hit_discriminant s r)) ?_ hroot
      (Option.some.inj hhit).symm
    unfold hit_root_plus; field_simp

/-- C19 at the end-to-end example: the recorded point is `(0, 0, -1/2)`. -/
theorem sphere_hit_point_on_surface_witness :
    (hit_record_at (demo_sphere : sphere ℝ) demo_ray (1 / 2)).point
        = (demo_ray : ray ℝ).origin
          + vec3.smul (hit_record_at (demo_sphere : sphere ℝ) demo_ray (1 / 2)).t
              (demo_ray : ray ℝ).direction ∧
      ((hit_record_at (demo_sphere : sphere ℝ) demo_ray (1 / 2)).point
          - (demo_sphere : sphere ℝ).center_).length_squared
        = (demo_sphere : sphere ℝ).radius_ * (demo_sphere : sphere ℝ).radius_ ∧
      hit_a (demo_ray : ray ℝ) * (hit_record_at (demo_sphere : sphere ℝ) demo_ray (1 / 2)).t ^ 2
          + 2 * hit_half_b (demo_sphere : sphere ℝ) demo_ray
            * (hit_record_at (demo_sphere : sphere ℝ) demo_ray (1 / 2)).t
          + hit_c (demo_sphere : sphere ℝ) demo_ray = 0 ∧
      (hit_record_at (demo_sphere : sphere ℝ) demo_ray (1 / 2)).material_ptr
        = (demo_sphere : sphere ℝ).material_ptr :=
  sphere_hit_point_on_surface Real.sqrt isSqrt_real demo_sphere demo_ray (1 / 1000) ⊤ blank_record _
    (by norm_num [demo_sphere]) demo_ray_direction_ne_zero (demo_hit isSqrt_real blank_record)

end SpherePoint

/-! ## ray_color: the energy bound -/

section Energy

variable {K : Type} [LinearOrderedField K]

/-- A checked normalisation that succeeds gives what `vec3.normalized` gives. -/
theorem normalized_checked_eq_some {sqrt : K → K} {v w : vec3 K}
    (h : v.normalized_checked sqrt = some w) : w = v.normalized sqrt := by
  unfold vec3.normalized_checked at h
  split_ifs at h
  exact (Option.some.inj h).symm

/-- A checked scatter that succeeds gives what `material.scatter` gives. -/
theorem scatter_checked_eq_some {sqrt : K → K} {m : material K} {r_in : ray K}
    {rec : hit_record K} {d : draws K} {res : scatter_result K}
    (h : m.scatter_checked sqrt r_in rec d = some res) : res = m.scatter sqrt r_in rec d := by
  cases m with
  | of_lambertian l => exact (Option.some.inj h).symm
  | of_metal l =>
    simp only [material.scatter_checked] at h
    split at h
    · exact (Option.some.inj h).symm
    · cases h
  | of_dielectric l =>
    simp only [material.scatter_checked] at h
    split at h
    · exact (Option.some.inj h).symm
    · cases h

/-- Wherever the checked evaluation returns a colour, `ray_color` returns the
same colour: the two differ only where a normalisation divides by zero. -/
theorem ray_color_checked_colour (sqrt : K → K) (world : hittable K) (fuel : Nat)
    (rnd : Nat → draws K) (r : ray K) (depth : Int) (c : color K)
    (h : ray_color_checked sqrt world fuel rnd r depth = .colour c) :
    ray_color sqrt world fuel rnd r depth = some c := by
  induction fuel generalizing rnd r depth c with
  | zero => unfold ray_color_checked at h; cases h
  | succ n ih =>
    unfold ray_color_checked at h
    unfold ray_color
    by_cases hd : depth ≤ 0
    · rw [if_pos hd] at h ⊢
      cases h; rfl
    · rw [if_neg hd] at h ⊢
      cases hw : world r (1 / 1000) ⊤ with
      | none =>
        rw [hw] at h
        simp only [] at h ⊢
        cases hn : r.direction.normalized_checked sqrt with
        | none => rw [hn] at h; cases h
        | some vec =>
          rw [hn] at h
          simp only [] at h
          rw [← normalized_checked_eq_some hn]
          cases h; rfl
      | some record =>
        rw [hw] at h
        simp only [] at h ⊢
        cases hs : record.material_ptr.scatter_checked sqrt r record (rnd 0) with
        | none => rw [hs] at h; cases h
        | some res =>
          rw [hs] at h
          simp only [] at h
          rw [← scatter_checked_eq_some hs]
          by_cases hr : res.returned = true
          · rw [if_pos hr] at h ⊢
            cases hc : ray_color_checked sqrt world n (fun k => rnd (k + 1)) res.scattered
                (depth - 1) with
            | out_of_fuel => rw [hc] at h; cases h
            | division_by_zero => rw [hc] at h; cases h
            | colour c1 =>
              rw [hc] at h
              simp only [] at h
              rw [ih _ _ _ _ hc]
              cases h; rfl
          · rw [if_neg hr] at h ⊢
            cases h; rfl

end Energy

end RayTracing
